import Mathlib

/-!
Verification of the stream reconstruction and record-merging engine of
`llm-interceptor` (`src/cci/merger.py`, class `StreamMerger`).

The Python code is shallowly embedded: JSON values become the inductive
`Json`; Python dict/`.get`/`in`/iteration/comparison semantics are modelled
by explicit helper functions; a raised exception is modelled as `none` in
an `Option`-valued result.  `json.loads` and `datetime.fromisoformat` are
library calls, so the development is parametric in them (`jp`, `isoOk`).
-/

namespace CCI

/-- A JSON value (the value domain of the Python code: numbers are modelled
as integers, which covers every field the merger inspects). -/
inductive Json where
  | null : Json
  | bool : Bool → Json
  | num : Int → Json
  | str : String → Json
  | arr : List Json → Json
  | obj : List (String × Json) → Json

mutual

/-- Decidable equality of JSON values (manual: `Json` nests through `List`). -/
def Json.decEq : (a b : Json) → Decidable (a = b)
  | .null, .null => isTrue rfl
  | .bool a, .bool b =>
    match inferInstanceAs (Decidable (a = b)) with
    | isTrue h => isTrue (h ▸ rfl)
    | isFalse h => isFalse (fun hh => h (Json.bool.inj hh))
  | .num a, .num b =>
    match inferInstanceAs (Decidable (a = b)) with
    | isTrue h => isTrue (h ▸ rfl)
    | isFalse h => isFalse (fun hh => h (Json.num.inj hh))
  | .str a, .str b =>
    match inferInstanceAs (Decidable (a = b)) with
    | isTrue h => isTrue (h ▸ rfl)
    | isFalse h => isFalse (fun hh => h (Json.str.inj hh))
  | .arr xs, .arr ys =>
    match Json.decEqList xs ys with
    | isTrue h => isTrue (h ▸ rfl)
    | isFalse h => isFalse (fun hh => h (Json.arr.inj hh))
  | .obj xs, .obj ys =>
    match Json.decEqObj xs ys with
    | isTrue h => isTrue (h ▸ rfl)
    | isFalse h => isFalse (fun hh => h (Json.obj.inj hh))
  | .null, .bool _ => isFalse (fun h => Json.noConfusion h)
  | .null, .num _ => isFalse (fun h => Json.noConfusion h)
  | .null, .str _ => isFalse (fun h => Json.noConfusion h)
  | .null, .arr _ => isFalse (fun h => Json.noConfusion h)
  | .null, .obj _ => isFalse (fun h => Json.noConfusion h)
  | .bool _, .null => isFalse (fun h => Json.noConfusion h)
  | .bool _, .num _ => isFalse (fun h => Json.noConfusion h)
  | .bool _, .str _ => isFalse (fun h => Json.noConfusion h)
  | .bool _, .arr _ => isFalse (fun h => Json.noConfusion h)
  | .bool _, .obj _ => isFalse (fun h => Json.noConfusion h)
  | .num _, .null => isFalse (fun h => Json.noConfusion h)
  | .num _, .bool _ => isFalse (fun h => Json.noConfusion h)
  | .num _, .str _ => isFalse (fun h => Json.noConfusion h)
  | .num _, .arr _ => isFalse (fun h => Json.noConfusion h)
  | .num _, .obj _ => isFalse (fun h => Json.noConfusion h)
  | .str _, .null => isFalse (fun h => Json.noConfusion h)
  | .str _, .bool _ => isFalse (fun h => Json.noConfusion h)
  | .str _, .num _ => isFalse (fun h => Json.noConfusion h)
  | .str _, .arr _ => isFalse (fun h => Json.noConfusion h)
  | .str _, .obj _ => isFalse (fun h => Json.noConfusion h)
  | .arr _, .null => isFalse (fun h => Json.noConfusion h)
  | .arr _, .bool _ => isFalse (fun h => Json.noConfusion h)
  | .arr _, .num _ => isFalse (fun h => Json.noConfusion h)
  | .arr _, .str _ => isFalse (fun h => Json.noConfusion h)
  | .arr _, .obj _ => isFalse (fun h => Json.noConfusion h)
  | .obj _, .null => isFalse (fun h => Json.noConfusion h)
  | .obj _, .bool _ => isFalse (fun h => Json.noConfusion h)
  | .obj _, .num _ => isFalse (fun h => Json.noConfusion h)
  | .obj _, .str _ => isFalse (fun h => Json.noConfusion h)
  | .obj _, .arr _ => isFalse (fun h => Json.noConfusion h)

/-- Decidable equality of JSON value lists. -/
def Json.decEqList : (a b : List Json) → Decidable (a = b)
  | [], [] => isTrue rfl
  | [], _ :: _ => isFalse (fun h => List.noConfusion h)
  | _ :: _, [] => isFalse (fun h => List.noConfusion h)
  | x :: xs, y :: ys =>
    match Json.decEq x y with
    | isFalse h => isFalse (fun hh => h (List.cons.inj hh).1)
    | isTrue h =>
      match Json.decEqList xs ys with
      | isTrue h2 => isTrue (h ▸ h2 ▸ rfl)
      | isFalse h2 => isFalse (fun hh => h2 (List.cons.inj hh).2)

/-- Decidable equality of JSON object bindings. -/
def Json.decEqObj : (a b : List (String × Json)) → Decidable (a = b)
  | [], [] => isTrue rfl
  | [], _ :: _ => isFalse (fun h => List.noConfusion h)
  | _ :: _, [] => isFalse (fun h => List.noConfusion h)
  | (k, x) :: xs, (k', y) :: ys =>
    match inferInstanceAs (Decidable (k = k')) with
    | isFalse h => isFalse (fun hh => h (congrArg (fun l => (l.headD (k, x)).1) hh))
    | isTrue h =>
      match Json.decEq x y with
      | isFalse h2 => isFalse (fun hh => h2 (congrArg (fun l => (l.headD (k, x)).2) hh))
      | isTrue h2 =>
        match Json.decEqObj xs ys with
        | isTrue h3 => isTrue (h ▸ h2 ▸ h3 ▸ rfl)
        | isFalse h3 => isFalse (fun hh => h3 (List.cons.inj hh).2)

end

instance : DecidableEq Json := Json.decEq

/-- Python truthiness of a JSON value (`if x:`). -/
def Json.truthy : Json → Bool
  | .null => false
  | .bool b => b
  | .num n => n != 0
  | .str s => s ≠ ""
  | .arr xs => !xs.isEmpty
  | .obj kvs => !kvs.isEmpty

/-- Python hashability of a JSON value (lists and dicts are unhashable). -/
def Json.hashable : Json → Bool
  | .arr _ => false
  | .obj _ => false
  | _ => true

/-- Numeric view: Python compares `bool` with `int` (True == 1, False == 0). -/
def asInt? : Json → Option Int
  | .num n => some n
  | .bool b => some (if b then 1 else 0)
  | _ => none

/-- Python `==` on JSON values.  Accurate whenever at least one side is
hashable (the only situations the merger compares in: dict-key lookups and
`"k" in container` membership); for two unhashable values it falls back to
structural equality. -/
def pyEq (a b : Json) : Bool :=
  match a, b with
  | .null, .null => true
  | .str s, .str t => decide (s = t)
  | .arr xs, .arr ys => decide (xs = ys)
  | .obj xs, .obj ys => decide (xs = ys)
  | a, b =>
    match asInt? a, asInt? b with
    | some x, some y => decide (x = y)
    | _, _ => false

/-- Python `<` on JSON values: defined on number/bool pairs and on string
pairs, a `TypeError` (`none`) otherwise. -/
def pyLt (a b : Json) : Option Bool :=
  match asInt? a, asInt? b with
  | some x, some y => some (decide (x < y))
  | _, _ =>
    match a, b with
    | .str s, .str t => some (decide (s < t))
    | _, _ => none

/-- Two values CPython's sort may compare without raising. -/
def cmpOk (a b : Json) : Bool := (pyLt a b).isSome

/-- The stable "may stay before" relation used by Python's sort, which only
ever calls `<`: `a` may precede `b` iff not `b < a`.  On an incomparable
pair the value is irrelevant (the sort is modelled as raising there). -/
def pyLeB (a b : Json) : Bool := !((pyLt b a).getD false)

/-- A flat JSON object (one JSONL record, or a nested object payload). -/
abbrev Obj := List (String × Json)

/-- `d[k]` / `k in d` for a string-keyed JSON object (keys are unique in
objects decoded from JSON, so first match is the binding). -/
def objGet (kvs : Obj) (k : String) : Option Json :=
  match kvs with
  | [] => none
  | (k', v) :: rest => if k' = k then some v else objGet rest k

/-- `d.get(k, default)` for a string-keyed JSON object. -/
def objGetD (kvs : Obj) (k : String) (d : Json) : Json :=
  (objGet kvs k).getD d

/-- `x.get(k, default)` on an arbitrary value: `AttributeError` (`none`)
unless the value is a dict. -/
def pyAttrGetD (j : Json) (k : String) (d : Json) : Option Json :=
  match j with
  | .obj kvs => some (objGetD kvs k d)
  | _ => none

/-- Python iteration `for x in v`: list elements, string characters, or
dict keys; `TypeError` (`none`) otherwise. -/
def pyIterate : Json → Option (List Json)
  | .arr xs => some xs
  | .str s => some (s.data.map fun c => .str (String.mk [c]))
  | .obj kvs => some (kvs.map fun kv => .str kv.1)
  | _ => none

/-- `needle` occurs at the start of `hay`. -/
def charsAtStart : List Char → List Char → Bool
  | [], _ => true
  | _ :: _, [] => false
  | a :: as, b :: bs => a = b && charsAtStart as bs

/-- `needle` occurs somewhere inside `hay` (Python `sub in s` on strings). -/
def charsInside (needle : List Char) : List Char → Bool
  | [] => charsAtStart needle []
  | c :: rest => charsAtStart needle (c :: rest) || charsInside needle rest

/-- Python `k in v` for a string `k`: dict-key containment, list membership
(via `==`), substring test on strings; `TypeError` (`none`) otherwise. -/
def pyContains (k : String) (v : Json) : Option Bool :=
  match v with
  | .obj kvs => some (kvs.any fun kv => kv.1 = k)
  | .arr xs => some (xs.any fun x => pyEq (.str k) x)
  | .str s => some (charsInside k.data s.data)
  | _ => none

/-- Python `v[k]` for a string `k`: dict lookup (`KeyError` when absent);
`TypeError` (`none`) on any other container. -/
def pyGetItem (v : Json) (k : String) : Option Json :=
  match v with
  | .obj kvs => objGet kvs k
  | _ => none

/-- `"".join(parts)`: `TypeError` (`none`) unless every part is a string. -/
def pyJoin : List Json → Option String
  | [] => some ""
  | .str s :: rest => (pyJoin rest).map (s ++ ·)
  | _ => none

/-- Python-dict association list: `d[k] = v` updates the first `==`-equal
key in place (keeping the originally inserted key object, as CPython does)
and appends otherwise. -/
def dictSet {α : Type} (m : List (Json × α)) (k : Json) (v : α) : List (Json × α) :=
  match m with
  | [] => [(k, v)]
  | (k', v') :: rest => if pyEq k k' then (k', v) :: rest else (k', v') :: dictSet rest k v

/-- Python-dict lookup by `==`. -/
def dictGet? {α : Type} (m : List (Json × α)) (k : Json) : Option α :=
  match m with
  | [] => none
  | (k', v) :: rest => if pyEq k k' then some v else dictGet? rest k

/-- `defaultdict(list)`: `d[k].append(v)`. -/
def dictAppend {α : Type} (m : List (Json × List α)) (k : Json) (v : α) : List (Json × List α) :=
  match m with
  | [] => [(k, [v])]
  | (k', l) :: rest => if pyEq k k' then (k', l ++ [v]) :: rest else (k', l) :: dictAppend rest k v

/-- Stable insertion: place `a` before the first element it may precede. -/
def pyInsert {α : Type} (le : α → α → Bool) (a : α) : List α → List α
  | [] => [a]
  | b :: l => if le a b then a :: b :: l else b :: pyInsert le a l

/-- Stable sort (the semantics of Python's `sorted` when every needed
comparison is defined). -/
def pySortB {α : Type} (le : α → α → Bool) : List α → List α
  | [] => []
  | a :: l => pyInsert le a (pySortB le l)

/-- Python `sorted(l, key=key)` over JSON keys: raises (`none`) iff the
list holds an incomparable pair of keys, otherwise the stable sort. -/
def pySortByKey {α : Type} (key : α → Json) (l : List α) : Option (List α) :=
  if l.Pairwise (fun a b => cmpOk (key a) (key b)) then
    some (pySortB (fun a b => pyLeB (key a) (key b)) l)
  else none

/-- One escaped character of a `json.dumps` string. -/
def escapeChar (c : Char) : String :=
  if c = '\\' then "\\\\"
  else if c = '"' then "\\\""
  else if c = '\n' then "\\n"
  else if c = '\t' then "\\t"
  else if c = '\r' then "\\r"
  else String.mk [c]

/-- Escaped body of a `json.dumps` string literal. -/
def escapeStr (s : String) : String := String.join (s.data.map escapeChar)

mutual

/-- `json.dumps` (library call; total on JSON-decodable values, which is
all this model needs about it). -/
def dumpJson : Json → String
  | .null => "null"
  | .bool true => "true"
  | .bool false => "false"
  | .num n => toString n
  | .str s => "\"" ++ escapeStr s ++ "\""
  | .arr xs => "[" ++ dumpJsonList xs ++ "]"
  | .obj kvs => "\x7b" ++ dumpJsonObj kvs ++ "\x7d"

/-- Comma-joined dump of array elements. -/
def dumpJsonList : List Json → String
  | [] => ""
  | [x] => dumpJson x
  | x :: y :: rest => dumpJson x ++ ", " ++ dumpJsonList (y :: rest)

/-- Comma-joined dump of object bindings. -/
def dumpJsonObj : List (String × Json) → String
  | [] => ""
  | [(k, v)] => "\"" ++ escapeStr k ++ "\": " ++ dumpJson v
  | (k, v) :: kv :: rest => "\"" ++ escapeStr k ++ "\": " ++ dumpJson v ++ ", " ++ dumpJsonObj (kv :: rest)

end

/-- Body of the inner `for choice in content.get("choices", [])` loop of
`_extract_text_from_chunks` (merger.py lines 182-185). -/
def chunkChoiceStep (acc : List Json) (choice : Json) : Option (List Json) := do
  let delta ← pyAttrGetD choice "delta" (.obj [])
  let b ← pyContains "content" delta
  if b then do
    let x ← pyGetItem delta "content"
    pure (acc ++ [x])
  else pure acc

/-- Body of the `for choice in body.get("choices", [])` loop of
`_extract_text_from_body` (merger.py lines 283-286). -/
def bodyChoiceStep (acc : List Json) (choice : Json) : Option (List Json) := do
  let message ← pyAttrGetD choice "message" (.obj [])
  let b ← pyContains "content" message
  if b then do
    let x ← pyGetItem message "content"
    pure (acc ++ [x])
  else pure acc

/-- Check (a) of the chunk loop: an Anthropic `delta.text` field
(merger.py lines 175-178). -/
def deltaTextPart (kvs : Obj) : List Json :=
  match objGet kvs "delta" with
  | some (.obj d) =>
    match objGet d "text" with
    | some t => [t]
    | none => []
  | _ => []

/-- Check (b) of the chunk loop: OpenAI `choices[].delta.content`
(merger.py lines 181-185); `none` models a raised exception. -/
def choicesTextParts (kvs : Obj) : Option (List Json) :=
  match objGet kvs "choices" with
  | none => some []
  | some v =>
    match pyIterate v with
    | none => none
    | some items => items.foldlM chunkChoiceStep ([] : List Json)

/-- Check (c) of the chunk loop: a top-level `text` field (merger.py
lines 188-189). -/
def rawTextPart (kvs : Obj) : List Json :=
  match objGet kvs "text" with
  | some t => [t]
  | none => []

/-- Check (d) of the chunk loop: a `content_block.text` field (merger.py
lines 192-195). -/
def blockTextPart (kvs : Obj) : List Json :=
  match objGet kvs "content_block" with
  | some (.obj b) =>
    match objGet b "text" with
    | some t => [t]
    | none => []
  | _ => []

/-- `StreamMerger._extract_text_from_chunks`, body of the loop for one
chunk: the values appended to `text_parts` by the four cumulative vendor
checks, or `none` when the iteration raises (merger.py lines 169-198). -/
def chunkTextParts (chunk : Obj) : Option (List Json) :=
  match objGetD chunk "content" (.obj []) with
  | .obj kvs =>
    match choicesTextParts kvs with
    | none => none
    | some l2 => some (deltaTextPart kvs ++ l2 ++ rawTextPart kvs ++ blockTextPart kvs)
  | .str s => some [.str s]
  | _ => some []

/-- `StreamMerger._extract_text_from_chunks` (merger.py lines 165-200):
`none` models a raised exception (the Python code can raise, e.g. when
`"".join` meets a non-string part). -/
def extractTextFromChunks (chunks : List Obj) : Option String := do
  let parts ← chunks.mapM chunkTextParts
  pyJoin parts.flatten

/-- `StreamMerger._extract_text_from_body` (merger.py lines 266-290). -/
def extractTextFromBody (body : Obj) : Option String :=
  match objGet body "content" with
  | some (.arr items) =>
    pyJoin (items.foldl (fun acc item =>
      match item with
      | .obj kvs => match objGet kvs "text" with | some t => acc ++ [t] | none => acc
      | _ => acc) [])
  | some (.str s) => some s
  | _ =>
    match objGet body "choices" with
    | some v => do
      let items ← pyIterate v
      let texts ← items.foldlM bodyChoiceStep ([] : List Json)
      pyJoin texts
    | none => some (dumpJson (.obj body))

/-- Modelled from the spec: `cci.models.ToolCall` (the `cci.models` module
is not among the sources) — §3 Tool Invocation `{id, name, input}`;
`input` holds the parsed JSON value, the raw concatenated string on parse
failure, or null when no fragment was received. -/
structure ToolCall where
  id : Json
  name : Json
  input : Json
deriving DecidableEq

/-- Accumulator of `_extract_tool_calls_from_chunks`: `tool_call_data`
(index ↦ id/name, insertion-ordered) and `tool_input_parts`
(index ↦ `partial_json` fragments in append order). -/
structure ToolSt where
  data : List (Json × (Json × Json))
  parts : List (Json × List Json)
deriving DecidableEq

/-- One loop iteration of `_extract_tool_calls_from_chunks`
(merger.py lines 216-239); `none` models `TypeError` on an unhashable
content-block index. -/
def toolStep (st : ToolSt) (chunk : Obj) : Option ToolSt :=
  match objGetD chunk "content" (.obj []) with
  | .obj kvs =>
    let ctype := objGetD kvs "type" (.str "")
    let index := objGetD kvs "index" .null
    if ctype = .str "content_block_start" then
      match objGetD kvs "content_block" (.obj []) with
      | .obj b =>
        if objGetD b "type" .null = .str "tool_use" then
          if index.hashable then
            some { st with
              data := dictSet st.data index (objGetD b "id" (.str ""), objGetD b "name" (.str "")) }
          else none
        else some st
      | _ => some st
    else if ctype = .str "content_block_delta" then
      match objGetD kvs "delta" (.obj []) with
      | .obj d =>
        if objGetD d "type" .null = .str "input_json_delta" then
          let pj := objGetD d "partial_json" (.str "")
          if pj.truthy then
            if index = .null then some st
            else if index.hashable then
              some { st with parts := dictAppend st.parts index pj }
            else none
          else some st
        else some st
      | _ => some st
    else some st
  | _ => some st

/-- The chunk loop of `_extract_tool_calls_from_chunks`. -/
def toolFold : List Obj → ToolSt → Option ToolSt
  | [], st => some st
  | c :: cs, st =>
    match toolStep st c with
    | none => none
    | some st2 => toolFold cs st2

/-- Finalization of one tool call's `input` from its concatenated fragment
buffer (merger.py lines 247-254): parse when non-empty, keep the raw
string on `JSONDecodeError`, `None` when the buffer was empty. -/
def toolFinalizeInput (jp : String → Option Json) (s : String) : Json :=
  if s = "" then .null
  else
    match jp s with
    | some v => v
    | none => .str s

/-- Finalization of one registered index entry (merger.py lines 243-262);
`none` models the `TypeError` of `"".join` on non-string fragments. -/
def finalizeEntry (jp : String → Option Json) (parts : List (Json × List Json))
    (e : Json × Json × Json) : Option ToolCall :=
  match pyJoin ((dictGet? parts e.1).getD []) with
  | none => none
  | some s => some { id := e.2.1, name := e.2.2, input := toolFinalizeInput jp s }

/-- Finalization loop over the sorted registered entries. -/
def finalizeAll (jp : String → Option Json) (parts : List (Json × List Json)) :
    List (Json × Json × Json) → Option (List ToolCall)
  | [] => some []
  | e :: es =>
    match finalizeEntry jp parts e with
    | none => none
    | some tc =>
      match finalizeAll jp parts es with
      | none => none
      | some tcs => some (tc :: tcs)

/-- `StreamMerger._extract_tool_calls_from_chunks` (merger.py lines
202-264), parametric in `jp` = `json.loads`. -/
def extractToolCallsFromChunks (jp : String → Option Json) (chunks : List Obj) :
    Option (List ToolCall) :=
  match toolFold chunks { data := [], parts := [] } with
  | none => none
  | some st =>
    match pySortByKey (fun e => e.1) st.data with
    | none => none
    | some sortedD => finalizeAll jp st.parts sortedD

/-- `StreamMerger._extract_tool_calls_from_body` (merger.py lines 292-328). -/
def extractToolCallsFromBody (body : Obj) : Option (List ToolCall) :=
  let tcs1 : List ToolCall :=
    match objGet body "content" with
    | some (.arr items) =>
      items.foldl (fun acc item =>
        match item with
        | .obj kvs =>
          if objGetD kvs "type" .null = .str "tool_use" then
            acc ++ [{ id := objGetD kvs "id" (.str ""), name := objGetD kvs "name" (.str ""),
                      input := objGetD kvs "input" .null }]
          else acc
        | _ => acc) []
    | _ => []
  match objGet body "choices" with
  | none => some tcs1
  | some v => do
    let items ← pyIterate v
    items.foldlM (fun acc choice => do
      let message ← pyAttrGetD choice "message" (.obj [])
      let b ← pyContains "tool_calls" message
      if b then do
        let tlist ← pyAttrGetD message "tool_calls" (.arr [])
        let tcs ← pyIterate tlist
        tcs.foldlM (fun acc2 tc => do
          let tcid ← pyAttrGetD tc "id" (.str "")
          let f ← pyAttrGetD tc "function" (.obj [])
          let fname ← pyAttrGetD f "name" (.str "")
          let f2 ← pyAttrGetD tc "function" (.obj [])
          let args ← pyAttrGetD f2 "arguments" .null
          pure (acc2 ++ [{ id := tcid, name := fname, input := args }])) acc
      else pure acc) tcs1

/-- A `datetime` as far as the merger observes one: either parsed from an
ISO string (after stripping trailing "Z") or `datetime.utcnow()`. -/
inductive PyDateTime where
  | fromIso (s : String)
  | utcnow
deriving DecidableEq

/-- `ts.rstrip("Z")`. -/
def rstripZ (s : String) : String := String.mk ((s.data.reverse.dropWhile (· = 'Z')).reverse)

/-- `StreamMerger._parse_timestamp` (merger.py lines 330-341), parametric
in `isoOk` = success of `datetime.fromisoformat`.  A `datetime` input
cannot occur for records decoded from JSONL. -/
def parseTimestamp (isoOk : String → Bool) (ts : Json) : PyDateTime :=
  match ts with
  | .str s => if isoOk (rstripZ s) then .fromIso (rstripZ s) else .utcnow
  | _ => .utcnow

/-- Modelled from the spec: `cci.models.MergedRecord` (the `cci.models`
module is not among the sources) — §3 Merged Record, one per completed
exchange. -/
structure MergedRecord where
  request_id : Json
  timestamp : PyDateTime
  method : Json
  url : Json
  request_body : Json
  response_status : Json
  response_text : String
  tool_calls : List ToolCall
  total_latency_ms : Json
  chunk_count : Nat
deriving DecidableEq

/-- The statistics dictionary returned by `StreamMerger.merge`
(merger.py lines 82-88). -/
structure Stats where
  total_requests : Nat
  streaming_requests : Nat
  non_streaming_requests : Nat
  incomplete_requests : Nat
  total_chunks_processed : Nat
deriving DecidableEq

/-- The grouping maps of `StreamMerger.merge` (merger.py lines 49-52). -/
structure GroupSt where
  requests : List (Json × Obj)
  chunks : List (Json × List Obj)
  metas : List (Json × Obj)
  nonStreaming : List (Json × Obj)
deriving DecidableEq

/-- Empty grouping state. -/
def initGroup : GroupSt := ⟨[], [], [], []⟩

/-- One iteration of the grouping loop (merger.py lines 54-71); `none`
models `KeyError` on a request without "id" and `TypeError` on an
unhashable id. -/
def groupStep (st : GroupSt) (record : Obj) : Option GroupSt :=
  let rt := objGetD record "type" (.str "")
  if rt = .str "request" then
    match objGet record "id" with
    | none => none
    | some i =>
      if i.hashable then some { st with requests := dictSet st.requests i record } else none
  else if rt = .str "response_chunk" then
    let rid := objGetD record "request_id" .null
    if rid.truthy then
      if rid.hashable then some { st with chunks := dictAppend st.chunks rid record } else none
    else some st
  else if rt = .str "response_meta" then
    let rid := objGetD record "request_id" .null
    if rid.truthy then
      if rid.hashable then some { st with metas := dictSet st.metas rid record } else none
    else some st
  else if rt = .str "response" then
    let rid := objGetD record "request_id" .null
    if rid.truthy then
      if rid.hashable then some { st with nonStreaming := dictSet st.nonStreaming rid record } else none
    else some st
  else some st

/-- The grouping loop of `StreamMerger.merge`. -/
def groupRecords : List Obj → GroupSt → Option GroupSt
  | [], st => some st
  | r :: rs, st =>
    match groupStep st r with
    | none => none
    | some st2 => groupRecords rs st2

/-- How one request was classified (and, when streaming, its chunk count). -/
inductive ReqClass where
  | streaming (n : Nat)
  | nonStreamingR
  | incomplete

/-- Classification of one request (merger.py lines 90-154): the emitted
record (if any) and the classification; `none` models a raised exception
(chunk sort comparison, extraction, or slicing a non-string id in the
incomplete-request warning). -/
def classifyEntry (jp : String → Option Json) (isoOk : String → Bool) (st : GroupSt)
    (rid : Json) (request : Obj) : Option (Option MergedRecord × ReqClass) :=
  match dictGet? st.chunks rid with
  | some clist =>
    match pySortByKey (fun c => objGetD c "chunk_index" (.num 0)) clist with
    | none => none
    | some sortedChunks =>
      let meta := (dictGet? st.metas rid).getD []
      match extractTextFromChunks sortedChunks with
      | none => none
      | some text =>
        match extractToolCallsFromChunks jp sortedChunks with
        | none => none
        | some tcs =>
          let status : Json :=
            match sortedChunks with
            | [] => .num 0
            | c0 :: _ => objGetD meta "status_code" (objGetD c0 "status_code" (.num 0))
          some (some {
            request_id := rid
            timestamp := parseTimestamp isoOk (objGetD request "timestamp" .null)
            method := objGetD request "method" (.str "")
            url := objGetD request "url" (.str "")
            request_body := objGetD request "body" .null
            response_status := status
            response_text := text
            tool_calls := tcs
            total_latency_ms := objGetD meta "total_latency_ms" (.num 0)
            chunk_count := sortedChunks.length }, .streaming sortedChunks.length)
  | none =>
    match dictGet? st.nonStreaming rid with
    | some response =>
      let body := objGetD response "body" .null
      let tt : Option (String × List ToolCall) :=
        match body with
        | .obj kvs =>
          match extractTextFromBody kvs with
          | none => none
          | some t =>
            match extractToolCallsFromBody kvs with
            | none => none
            | some tc => some (t, tc)
        | .str s => some (s, [])
        | b => some (if b.truthy then dumpJson b else "", [])
      match tt with
      | none => none
      | some (text, tcs) =>
        some (some {
          request_id := rid
          timestamp := parseTimestamp isoOk (objGetD request "timestamp" .null)
          method := objGetD request "method" (.str "")
          url := objGetD request "url" (.str "")
          request_body := objGetD request "body" .null
          response_status := objGetD response "status_code" (.num 0)
          response_text := text
          tool_calls := tcs
          total_latency_ms := objGetD response "latency_ms" (.num 0)
          chunk_count := 0 }, .nonStreamingR)
    | none =>
      match rid with
      | .str _ => some (none, .incomplete)
      | _ => none

/-- Statistics update for one classified request (merger.py lines 118-119,
149, 154). -/
def applyStats (s : Stats) : ReqClass → Stats
  | .streaming n => { s with streaming_requests := s.streaming_requests + 1,
                             total_chunks_processed := s.total_chunks_processed + n }
  | .nonStreamingR => { s with non_streaming_requests := s.non_streaming_requests + 1 }
  | .incomplete => { s with incomplete_requests := s.incomplete_requests + 1 }

/-- The classification loop of `StreamMerger.merge` over the grouped
requests in insertion order. -/
def classifyAll (jp : String → Option Json) (isoOk : String → Bool) (st : GroupSt) :
    List (Json × Obj) → Stats → List MergedRecord → Option (Stats × List MergedRecord)
  | [], stats, recs => some (stats, recs)
  | (rid, req) :: rest, stats, recs =>
    match classifyEntry jp isoOk st rid req with
    | none => none
    | some (r?, c) => classifyAll jp isoOk st rest (applyStats stats c) (recs ++ r?.toList)

/-- `StreamMerger.merge` (merger.py lines 38-163).  The input list stands
for the records `read_jsonl` yields (spec §6: flat objects with a `type`
discriminator; `cci.storage` is not among the sources, so the sink
boundary is modelled from the spec as the identity); the returned record
list is what is written to the output sink; `none` models an exception
aborting the pass. -/
def merge (jp : String → Option Json) (isoOk : String → Bool) (records : List Obj) :
    Option (Stats × List MergedRecord) :=
  match groupRecords records initGroup with
  | none => none
  | some st =>
    classifyAll jp isoOk st st.requests
      { total_requests := st.requests.length, streaming_requests := 0,
        non_streaming_requests := 0, incomplete_requests := 0, total_chunks_processed := 0 } []

/-! ### Properties of the Python comparison model -/

theorem pyEq_refl (a : Json) : pyEq a a = true := by
  cases a <;> simp [pyEq, asInt?]

theorem pyEq_symm (a b : Json) : pyEq a b = pyEq b a := by
  cases a <;> cases b <;> simp [pyEq, asInt?] <;>
    first
    | rfl
    | exact (by constructor <;> (intro h; exact h.symm))

theorem pyEq_trans {a b c : Json} (h1 : pyEq a b = true) (h2 : pyEq b c = true) :
    pyEq a c = true := by
  cases a <;> cases b <;> cases c <;> simp_all [pyEq, asInt?]

theorem pyEq_truthy {a b : Json} (h : pyEq a b = true) : a.truthy = b.truthy := by
  cases a <;> cases b <;> simp_all [pyEq, asInt?, Json.truthy] <;>
    (try rename_i x y) <;>
    first
    | (cases x <;> simp_all <;> omega)
    | (cases y <;> simp_all <;> omega)

theorem pyEq_hashable {a b : Json} (h : pyEq a b = true) : a.hashable = b.hashable := by
  cases a <;> cases b <;> simp_all [pyEq, asInt?, Json.hashable]

theorem cmpOk_symm (a b : Json) : cmpOk a b = cmpOk b a := by
  cases a <;> cases b <;> simp [cmpOk, pyLt, asInt?]

theorem pyLeB_total (a b : Json) : pyLeB a b = true ∨ pyLeB b a = true := by
  cases a <;> cases b <;> simp_all [pyLeB, pyLt, asInt?] <;>
    first
    | omega
    | (rename_i s t
       by_contra hc
       push_neg at hc
       exact absurd (lt_trans hc.1 hc.2) (lt_irrefl _))

theorem pyLeB_trans {a b c : Json} (hab : cmpOk a b = true) (hbc : cmpOk b c = true)
    (h1 : pyLeB a b = true) (h2 : pyLeB b c = true) : pyLeB a c = true := by
  cases a <;> cases b <;> cases c <;>
    simp_all [pyLeB, cmpOk, pyLt, asInt?] <;>
    first
    | omega
    | exact le_trans h1 h2

theorem cmpOk_trans {a b c : Json} (hab : cmpOk a b = true) (hbc : cmpOk b c = true) :
    cmpOk a c = true := by
  cases a <;> cases b <;> cases c <;> simp_all [cmpOk, pyLt, asInt?]

theorem pyLt_of_le_of_ne {a b : Json} (hc : cmpOk a b = true) (hle : pyLeB a b = true)
    (hne : pyEq a b = false) : pyLt a b = some true := by
  cases a <;> cases b <;>
    simp_all [pyLeB, cmpOk, pyLt, pyEq, asInt?] <;>
    first
    | omega
    | (rename_i s t
       refine lt_of_le_of_ne ?_ ?_
       · exact hle
       · intro hd
         exact hne (by cases s; cases t; simp_all))

theorem pyLt_asymm {a b : Json} (h1 : pyLt a b = some true) (h2 : pyLt b a = some true) :
    False := by
  cases a <;> cases b <;> simp_all [pyLt, asInt?] <;>
    first
    | omega
    | exact absurd h2 (not_lt_of_lt h1)

/-! ### Properties of the stable sort model -/

theorem pyInsert_perm {α : Type} (le : α → α → Bool) (a : α) (l : List α) :
    List.Perm (pyInsert le a l) (a :: l) := by
  induction l with
  | nil => exact List.Perm.refl _
  | cons b t ih =>
    by_cases h : le a b
    · simp [pyInsert, h]
    · simp only [pyInsert, h, if_neg, Bool.false_eq_true, not_false_eq_true, if_false]
      exact (ih.cons b).trans (List.Perm.swap a b t)

theorem pySortB_perm {α : Type} (le : α → α → Bool) (l : List α) : List.Perm (pySortB le l) l := by
  induction l with
  | nil => exact List.Perm.refl _
  | cons a t ih => exact (pyInsert_perm le a (pySortB le t)).trans (ih.cons a)

theorem pySortB_length {α : Type} (le : α → α → Bool) (l : List α) :
    (pySortB le l).length = l.length :=
  (pySortB_perm le l).length_eq

theorem cmpOk_symmetric {α : Type} (key : α → Json) :
    ∀ {x y : α}, cmpOk (key x) (key y) = true → cmpOk (key y) (key x) = true := by
  intro x y h
  rw [cmpOk_symm]
  exact h

theorem pyEqF_symmetric {α : Type} (key : α → Json) :
    ∀ {x y : α}, pyEq (key x) (key y) = false → pyEq (key y) (key x) = false := by
  intro x y h
  rw [pyEq_symm]
  exact h

theorem pyInsert_pairwise {α : Type} (key : α → Json) (a : α) (l : List α)
    (hc : ∀ b ∈ l, cmpOk (key a) (key b) = true)
    (hl : l.Pairwise fun x y => cmpOk (key x) (key y) = true)
    (hs : l.Pairwise fun x y => pyLeB (key x) (key y) = true) :
    (pyInsert (fun x y => pyLeB (key x) (key y)) a l).Pairwise
      fun x y => pyLeB (key x) (key y) = true := by
  induction l with
  | nil => simp [pyInsert]
  | cons b t ih =>
    rcases List.pairwise_cons.mp hl with ⟨hlb, hlt⟩
    rcases List.pairwise_cons.mp hs with ⟨hsb, hst⟩
    by_cases h : pyLeB (key a) (key b) = true
    · simp only [pyInsert, h, if_true]
      refine List.pairwise_cons.mpr ⟨?_, List.pairwise_cons.mpr ⟨hsb, hst⟩⟩
      intro x hx
      rcases List.mem_cons.mp hx with rfl | hx
      · exact h
      · exact pyLeB_trans (hc b (List.mem_cons_self b t)) (hlb x hx) h (hsb x hx)
    · simp only [pyInsert, h, if_false]
      refine List.pairwise_cons.mpr ⟨?_, ?_⟩
      · intro x hx
        rcases List.mem_cons.mp ((pyInsert_perm _ a t).mem_iff.mp hx) with rfl | hx
        · rcases pyLeB_total (key b) (key x) with hh | hh
          · exact hh
          · exact absurd hh h
        · exact hsb x hx
      · exact ih (fun c hcm => hc c (by simp [hcm])) hlt hst

theorem pySortB_pairwise {α : Type} (key : α → Json) (l : List α)
    (hl : l.Pairwise fun x y => cmpOk (key x) (key y) = true) :
    (pySortB (fun x y => pyLeB (key x) (key y)) l).Pairwise
      fun x y => pyLeB (key x) (key y) = true := by
  induction l with
  | nil => simp [pySortB]
  | cons a t ih =>
    rcases List.pairwise_cons.mp hl with ⟨hla, hlt⟩
    refine pyInsert_pairwise key a _ ?_ ?_ (ih hlt)
    · intro b hb
      exact hla b ((pySortB_perm _ t).mem_iff.mp hb)
    · exact ((pySortB_perm _ t).pairwise_iff (cmpOk_symmetric key)).mpr hlt

/-- A stably sorted list with pairwise-distinct comparable keys is strictly
ascending in the keys. -/
theorem pySortByKey_strict {α : Type} (key : α → Json) {l sorted : List α}
    (hnd : l.Pairwise fun x y => pyEq (key x) (key y) = false)
    (h : pySortByKey key l = some sorted) :
    (sorted.Pairwise fun x y => pyLt (key x) (key y) = some true) ∧ List.Perm sorted l := by
  unfold pySortByKey at h
  split at h
  case isFalse => exact absurd h (by simp)
  case isTrue hp =>
    have hsorted := Option.some.inj h
    subst hsorted
    have hperm := pySortB_perm (fun x y => pyLeB (key x) (key y)) l
    refine ⟨?_, hperm⟩
    have hle := pySortB_pairwise key l (by simpa using hp)
    have hcmp : (pySortB (fun x y => pyLeB (key x) (key y)) l).Pairwise
        fun x y => cmpOk (key x) (key y) = true :=
      (hperm.pairwise_iff (cmpOk_symmetric key)).mpr (by simpa using hp)
    have hnd2 : (pySortB (fun x y => pyLeB (key x) (key y)) l).Pairwise
        fun x y => pyEq (key x) (key y) = false :=
      (hperm.pairwise_iff (pyEqF_symmetric key)).mpr hnd
    have hall := (hcmp.and hle).and hnd2
    exact hall.imp (fun h => pyLt_of_le_of_ne h.1.1 h.1.2 h.2)

/-- Two permutations of the same elements with pairwise-distinct keys sort
identically (as `Option`s: an incomparable pair raises on both sides). -/
theorem pySortByKey_congr {α : Type} (key : α → Json) {l₁ l₂ : List α} (hperm : List.Perm l₁ l₂)
    (hnd : l₁.Pairwise fun x y => pyEq (key x) (key y) = false) :
    pySortByKey key l₁ = pySortByKey key l₂ := by
  by_cases hp : l₁.Pairwise fun x y => cmpOk (key x) (key y) = true
  · have hp2 := (hperm.pairwise_iff (cmpOk_symmetric key)).mp hp
    have h1 : pySortByKey key l₁ = some (pySortB (fun x y => pyLeB (key x) (key y)) l₁) := by
      unfold pySortByKey
      rw [if_pos (by simpa using hp)]
    have h2 : pySortByKey key l₂ = some (pySortB (fun x y => pyLeB (key x) (key y)) l₂) := by
      unfold pySortByKey
      rw [if_pos (by simpa using hp2)]
    rcases pySortByKey_strict key hnd h1 with ⟨hs1, hperm1⟩
    rcases pySortByKey_strict key ((hperm.pairwise_iff (pyEqF_symmetric key)).mp hnd) h2
      with ⟨hs2, hperm2⟩
    rw [h1, h2]
    congr 1
    haveI : IsAntisymm α (fun x y => pyLt (key x) (key y) = some true) :=
      ⟨fun a b hab hba => (pyLt_asymm hab hba).elim⟩
    exact List.eq_of_perm_of_sorted (hperm1.trans (hperm.trans hperm2.symm)) hs1 hs2
  · have hp2 : ¬ l₂.Pairwise fun x y => cmpOk (key x) (key y) = true := by
      intro hc
      exact hp ((hperm.pairwise_iff (cmpOk_symmetric key)).mpr hc)
    unfold pySortByKey
    rw [if_neg (by simpa using hp), if_neg (by simpa using hp2)]

/-! ### Properties of the Python dict model -/

theorem pyEq_false_of_left {k k' k0 : Json} (h : pyEq k' k = true) (h0 : pyEq k k0 = false) :
    pyEq k' k0 = false := by
  cases hq : pyEq k' k0
  · rfl
  · rw [← h0]
    rw [pyEq_symm] at h
    exact (pyEq_trans h hq).symm ▸ (pyEq_trans h hq)

theorem dictGet?_congr {α : Type} (m : List (Json × α)) {k k' : Json} (h : pyEq k' k = true) :
    dictGet? m k' = dictGet? m k := by
  induction m with
  | nil => rfl
  | cons e rest ih =>
    obtain ⟨k0, v0⟩ := e
    by_cases h1 : pyEq k' k0 = true
    · have h2 : pyEq k k0 = true := pyEq_trans (by rwa [pyEq_symm]) h1
      simp [dictGet?, h1, h2]
    · have h2 : pyEq k k0 = false := by
        cases hq : pyEq k k0
        · rfl
        · exact absurd (pyEq_trans h hq) h1
      simp only [dictGet?]
      rw [if_neg (by simp [h1]), if_neg (by simp [h2])]
      exact ih

theorem dictGet?_set {α : Type} (m : List (Json × α)) (k k' : Json) (v : α) :
    dictGet? (dictSet m k v) k' =
      if pyEq k' k = true then some v else dictGet? m k' := by
  induction m with
  | nil => simp [dictSet, dictGet?]
  | cons e rest ih =>
    obtain ⟨k0, v0⟩ := e
    by_cases h0 : pyEq k k0 = true
    · simp only [dictSet, h0, if_true]
      by_cases h1 : pyEq k' k0 = true
      · have h2 : pyEq k' k = true := pyEq_trans h1 (by rwa [pyEq_symm])
        simp [dictGet?, h1, h2]
      · have h2 : pyEq k' k = false := by
          cases hq : pyEq k' k
          · rfl
          · exact absurd (pyEq_trans hq h0) h1
        simp [dictGet?, h1, h2]
    · have h0' : pyEq k k0 = false := by simpa using h0
      simp only [dictSet, h0', Bool.false_eq_true, if_false]
      by_cases h1 : pyEq k' k0 = true
      · have h2 : pyEq k' k = false := by
          cases hq : pyEq k' k
          · rfl
          · exact absurd (pyEq_trans (by rwa [pyEq_symm] at hq) h1) h0
        simp [dictGet?, h1, h2]
      · simp only [dictGet?]
        rw [if_neg (by simp [h1]), ih]
        by_cases h2 : pyEq k' k = true
        · simp [h2]
        · simp [h2, dictGet?]
          rw [if_neg (by simp [h1])]

theorem dictGet?_append {α : Type} (m : List (Json × List α)) (k k' : Json) (v : α) :
    dictGet? (dictAppend m k v) k' =
      if pyEq k' k = true then some ((dictGet? m k').getD [] ++ [v]) else dictGet? m k' := by
  induction m with
  | nil => simp [dictAppend, dictGet?]
  | cons e rest ih =>
    obtain ⟨k0, v0⟩ := e
    by_cases h0 : pyEq k k0 = true
    · simp only [dictAppend, h0, if_true]
      by_cases h1 : pyEq k' k0 = true
      · have h2 : pyEq k' k = true := pyEq_trans h1 (by rwa [pyEq_symm])
        simp [dictGet?, h1, h2]
      · have h2 : pyEq k' k = false := by
          cases hq : pyEq k' k
          · rfl
          · exact absurd (pyEq_trans hq h0) h1
        simp [dictGet?, h1, h2]
    · have h0' : pyEq k k0 = false := by simpa using h0
      simp only [dictAppend, h0', Bool.false_eq_true, if_false]
      by_cases h1 : pyEq k' k0 = true
      · have h2 : pyEq k' k = false := by
          cases hq : pyEq k' k
          · rfl
          · exact absurd (pyEq_trans (by rwa [pyEq_symm] at hq) h1) h0
        simp [dictGet?, h1, h2]
      · simp only [dictGet?]
        rw [if_neg (by simp [h1]), ih]
        by_cases h2 : pyEq k' k = true
        · simp only [h2, if_true, dictGet?]
          rw [if_neg (by simp [h1])]
        · simp [h2, dictGet?]
          rw [if_neg (by simp [h1])]

theorem dictSet_keys {α : Type} (m : List (Json × α)) (k : Json) (v : α) :
    (dictSet m k v).map Prod.fst =
      if (dictGet? m k).isSome then m.map Prod.fst else m.map Prod.fst ++ [k] := by
  induction m with
  | nil => simp [dictSet, dictGet?]
  | cons e rest ih =>
    obtain ⟨k0, v0⟩ := e
    by_cases h0 : pyEq k k0 = true
    · simp [dictSet, dictGet?, h0]
    · have h0' : pyEq k k0 = false := by simpa using h0
      simp only [dictSet, dictGet?, h0', Bool.false_eq_true, if_false, List.map_cons]
      rw [ih]
      by_cases h1 : (dictGet? rest k).isSome
      · simp [h1]
      · simp [h1]

theorem dictAppend_keys {α : Type} (m : List (Json × List α)) (k : Json) (v : α) :
    (dictAppend m k v).map Prod.fst =
      if (dictGet? m k).isSome then m.map Prod.fst else m.map Prod.fst ++ [k] := by
  induction m with
  | nil => simp [dictAppend, dictGet?]
  | cons e rest ih =>
    obtain ⟨k0, v0⟩ := e
    by_cases h0 : pyEq k k0 = true
    · simp [dictAppend, dictGet?, h0]
    · have h0' : pyEq k k0 = false := by simpa using h0
      simp only [dictAppend, dictGet?, h0', Bool.false_eq_true, if_false, List.map_cons]
      rw [ih]
      by_cases h1 : (dictGet? rest k).isSome
      · simp [h1]
      · simp [h1]

/-- Keys of a Python-dict association list are pairwise distinct under `==`. -/
def KeysDistinct {α : Type} (m : List (Json × α)) : Prop :=
  m.Pairwise fun e1 e2 => pyEq e1.1 e2.1 = false

theorem keysDistinct_dictSet {α : Type} {m : List (Json × α)} (k : Json) (v : α)
    (h : KeysDistinct m) : KeysDistinct (dictSet m k v) := by
  induction m with
  | nil => simp [KeysDistinct, dictSet]
  | cons e rest ih =>
    obtain ⟨k0, v0⟩ := e
    rcases List.pairwise_cons.mp h with ⟨hk0, hrest⟩
    by_cases h0 : pyEq k k0 = true
    · simp only [dictSet, h0, if_true]
      exact List.pairwise_cons.mpr ⟨hk0, hrest⟩
    · have h0' : pyEq k k0 = false := by simpa using h0
      simp only [dictSet, h0', Bool.false_eq_true, if_false]
      refine List.pairwise_cons.mpr ⟨?_, ih hrest⟩
      intro e he
      have : e.1 ∈ (dictSet rest k v).map Prod.fst := List.mem_map_of_mem Prod.fst he
      rw [dictSet_keys] at this
      by_cases h1 : (dictGet? rest k).isSome
      · rw [if_pos h1] at this
        rcases List.mem_map.mp this with ⟨e', he', hee⟩
        exact hee ▸ hk0 e' he' 
      · rw [if_neg h1] at this
        rcases List.mem_append.mp this with hm | hm
        · rcases List.mem_map.mp hm with ⟨e', he', hee⟩
          exact hee ▸ hk0 e' he' 
        · have hek : e.1 = k := by simpa using hm
          rw [hek, pyEq_symm]
          simpa using h0

theorem keysDistinct_dictAppend {α : Type} {m : List (Json × List α)} (k : Json) (v : α)
    (h : KeysDistinct m) : KeysDistinct (dictAppend m k v) := by
  induction m with
  | nil => simp [KeysDistinct, dictAppend]
  | cons e rest ih =>
    obtain ⟨k0, v0⟩ := e
    rcases List.pairwise_cons.mp h with ⟨hk0, hrest⟩
    by_cases h0 : pyEq k k0 = true
    · simp only [dictAppend, h0, if_true]
      exact List.pairwise_cons.mpr ⟨hk0, hrest⟩
    · have h0' : pyEq k k0 = false := by simpa using h0
      simp only [dictAppend, h0', Bool.false_eq_true, if_false]
      refine List.pairwise_cons.mpr ⟨?_, ih hrest⟩
      intro e he
      have : e.1 ∈ (dictAppend rest k v).map Prod.fst := List.mem_map_of_mem Prod.fst he
      rw [dictAppend_keys] at this
      by_cases h1 : (dictGet? rest k).isSome
      · rw [if_pos h1] at this
        rcases List.mem_map.mp this with ⟨e', he', hee⟩
        exact hee ▸ hk0 e' he' 
      · rw [if_neg h1] at this
        rcases List.mem_append.mp this with hm | hm
        · rcases List.mem_map.mp hm with ⟨e', he', hee⟩
          exact hee ▸ hk0 e' he' 
        · have hek : e.1 = k := by simpa using hm
          rw [hek, pyEq_symm]
          simpa using h0

/-! ### Characterization of the grouping loop -/

/-- Record-type tests mirroring the `type` dispatch (merger.py lines 55-67). -/
def isReqT (r : Obj) : Bool := objGetD r "type" (.str "") = .str "request"

/-- `type == "response_chunk"`. -/
def isChunkT (r : Obj) : Bool := objGetD r "type" (.str "") = .str "response_chunk"

/-- `type == "response_meta"`. -/
def isMetaT (r : Obj) : Bool := objGetD r "type" (.str "") = .str "response_meta"

/-- `type == "response"`. -/
def isRespT (r : Obj) : Bool := objGetD r "type" (.str "") = .str "response"

/-- `record.get("request_id")`. -/
def ridOf (r : Obj) : Json := objGetD r "request_id" .null

/-- Whether the grouping loop processes `r` without raising. -/
def stepOk (r : Obj) : Bool :=
  if isReqT r then
    match objGet r "id" with
    | some i => i.hashable
    | none => false
  else if isChunkT r || isMetaT r || isRespT r then
    !(ridOf r).truthy || (ridOf r).hashable
  else true

/-- Total update of the `requests` map by one record. -/
def reqUpd (m : List (Json × Obj)) (r : Obj) : List (Json × Obj) :=
  if isReqT r then
    match objGet r "id" with
    | some i => dictSet m i r
    | none => m
  else m

/-- Total update of the `chunks` map by one record. -/
def chunkUpd (m : List (Json × List Obj)) (r : Obj) : List (Json × List Obj) :=
  if isChunkT r && (ridOf r).truthy then dictAppend m (ridOf r) r else m

/-- Total update of the `metas` map by one record. -/
def metaUpd (m : List (Json × Obj)) (r : Obj) : List (Json × Obj) :=
  if isMetaT r && (ridOf r).truthy then dictSet m (ridOf r) r else m

/-- Total update of the `non_streaming` map by one record. -/
def respUpd (m : List (Json × Obj)) (r : Obj) : List (Json × Obj) :=
  if isRespT r && (ridOf r).truthy then dictSet m (ridOf r) r else m

theorem groupStep_eq (st : GroupSt) (r : Obj) :
    groupStep st r =
      if stepOk r then
        some { requests := reqUpd st.requests r, chunks := chunkUpd st.chunks r,
               metas := metaUpd st.metas r, nonStreaming := respUpd st.nonStreaming r }
      else none := by
  by_cases h1 : objGetD r "type" (.str "") = .str "request"
  · simp only [groupStep, stepOk, reqUpd, chunkUpd, metaUpd, respUpd,
      isReqT, isChunkT, isMetaT, isRespT, h1, if_pos, decide_True]
    cases hid : objGet r "id" with
    | none => simp
    | some i => cases hh : i.hashable <;> simp [hh]
  · by_cases h2 : objGetD r "type" (.str "") = .str "response_chunk"
    · simp only [groupStep, stepOk, reqUpd, chunkUpd, metaUpd, respUpd,
        isReqT, isChunkT, isMetaT, isRespT, ridOf, h1, h2]
      cases ht : (objGetD r "request_id" .null).truthy
      · simp [ht]
      · cases hh : (objGetD r "request_id" .null).hashable <;> simp [ht, hh]
    · by_cases h3 : objGetD r "type" (.str "") = .str "response_meta"
      · simp only [groupStep, stepOk, reqUpd, chunkUpd, metaUpd, respUpd,
          isReqT, isChunkT, isMetaT, isRespT, ridOf, h1, h2, h3]
        cases ht : (objGetD r "request_id" .null).truthy
        · simp [ht]
        · cases hh : (objGetD r "request_id" .null).hashable <;> simp [ht, hh]
      · by_cases h4 : objGetD r "type" (.str "") = .str "response"
        · simp only [groupStep, stepOk, reqUpd, chunkUpd, metaUpd, respUpd,
            isReqT, isChunkT, isMetaT, isRespT, ridOf, h1, h2, h3, h4]
          cases ht : (objGetD r "request_id" .null).truthy
          · simp [ht]
          · cases hh : (objGetD r "request_id" .null).hashable <;> simp [ht, hh]
        · simp [groupStep, stepOk, reqUpd, chunkUpd, metaUpd, respUpd,
            isReqT, isChunkT, isMetaT, isRespT, h1, h2, h3, h4]

theorem groupRecords_eq (l : List Obj) (st : GroupSt) :
    groupRecords l st =
      if l.all stepOk then
        some { requests := l.foldl reqUpd st.requests, chunks := l.foldl chunkUpd st.chunks,
               metas := l.foldl metaUpd st.metas, nonStreaming := l.foldl respUpd st.nonStreaming }
      else none := by
  induction l generalizing st with
  | nil => simp [groupRecords]
  | cons r rest ih =>
    simp only [groupRecords, groupStep_eq]
    cases hok : stepOk r
    · simp [hok]
    · simp only [hok, if_true, List.all_cons, Bool.true_and, List.foldl_cons]
      exact ih _

theorem foldl_skip_filter {β : Type} (p : Obj → Bool) (upd : β → Obj → β)
    (hskip : ∀ m r, p r = false → upd m r = m) (l : List Obj) (m : β) :
    l.foldl upd m = (l.filter p).foldl upd m := by
  induction l generalizing m with
  | nil => rfl
  | cons r rest ih =>
    cases hp : p r
    · rw [List.foldl_cons, hskip m r hp, List.filter_cons_of_neg (by simp [hp])]
      exact ih m
    · rw [List.foldl_cons, List.filter_cons_of_pos (by simp [hp]), List.foldl_cons]
      exact ih _

theorem reqUpd_skip (m : List (Json × Obj)) (r : Obj) (h : isReqT r = false) :
    reqUpd m r = m := by simp [reqUpd, h]

theorem chunkUpd_skip (m : List (Json × List Obj)) (r : Obj) (h : isChunkT r = false) :
    chunkUpd m r = m := by simp [chunkUpd, h]

theorem metaUpd_skip (m : List (Json × Obj)) (r : Obj) (h : isMetaT r = false) :
    metaUpd m r = m := by simp [metaUpd, h]

theorem respUpd_skip (m : List (Json × Obj)) (r : Obj) (h : isRespT r = false) :
    respUpd m r = m := by simp [respUpd, h]

/-- One record is a chunk of the exchange keyed `k`. -/
def matchesChunk (k : Json) (r : Obj) : Bool :=
  isChunkT r && (ridOf r).truthy && pyEq (ridOf r) k

/-- One record is a meta of the exchange keyed `k`. -/
def matchesMeta (k : Json) (r : Obj) : Bool :=
  isMetaT r && (ridOf r).truthy && pyEq (ridOf r) k

/-- One record is a non-streaming response of the exchange keyed `k`. -/
def matchesResp (k : Json) (r : Obj) : Bool :=
  isRespT r && (ridOf r).truthy && pyEq (ridOf r) k

theorem chunks_lookup (l : List Obj) (m : List (Json × List Obj)) (k : Json) :
    dictGet? (l.foldl chunkUpd m) k =
      if (l.filter (matchesChunk k)).isEmpty then dictGet? m k
      else some ((dictGet? m k).getD [] ++ l.filter (matchesChunk k)) := by
  induction l generalizing m with
  | nil => simp
  | cons r rest ih =>
    by_cases hm : matchesChunk k r = true
    · have hparts := hm
      simp only [matchesChunk, Bool.and_assoc, Bool.and_eq_true] at hparts
      have hc : (isChunkT r && (ridOf r).truthy) = true := by simp [hparts.1, hparts.2.1]
      have hpe2 : pyEq k (ridOf r) = true := by
        rw [pyEq_symm]
        exact hparts.2.2
      rw [List.foldl_cons, List.filter_cons_of_pos hm]
      have hstep : chunkUpd m r = dictAppend m (ridOf r) r := by
        simp only [chunkUpd]
        rw [if_pos hc]
      rw [hstep, ih]
      have hlook : dictGet? (dictAppend m (ridOf r) r) k =
          some ((dictGet? m k).getD [] ++ [r]) := by
        rw [dictGet?_append, if_pos hpe2]
      rw [hlook]
      by_cases he : (rest.filter (matchesChunk k)).isEmpty
      · have hnil : rest.filter (matchesChunk k) = [] := List.isEmpty_iff.mp he
        simp [he, hnil]
      · simp [he]
    · have hmf : matchesChunk k r = false := by simpa using hm
      rw [List.foldl_cons, List.filter_cons_of_neg (by simp [hmf])]
      by_cases hc : (isChunkT r && (ridOf r).truthy) = true
      · have hpe : pyEq k (ridOf r) = false := by
          cases hq : pyEq k (ridOf r)
          · rfl
          · have hq2 : pyEq (ridOf r) k = true := by rwa [pyEq_symm] at hq
            rw [Bool.and_eq_true] at hc
            rw [matchesChunk] at hmf
            simp [hc.1, hc.2, hq2] at hmf
      /- the record is a chunk of another exchange: lookup at `k` unchanged -/
        have hstep : chunkUpd m r = dictAppend m (ridOf r) r := by
          simp only [chunkUpd]
          rw [if_pos hc]
        have heq : dictGet? (dictAppend m (ridOf r) r) k = dictGet? m k := by
          rw [dictGet?_append, if_neg (by simp [hpe])]
        rw [hstep, ih, heq]
      · have hstep : chunkUpd m r = m := by
          simp only [chunkUpd]
          rw [if_neg hc]
        rw [hstep, ih]

theorem dictGet?_isSome_any {α : Type} (m : List (Json × α)) (k : Json) :
    (dictGet? m k).isSome = m.any (fun e => pyEq k e.1) := by
  induction m with
  | nil => rfl
  | cons e rest ih =>
    obtain ⟨k0, v0⟩ := e
    by_cases h0 : pyEq k k0 = true
    · simp [dictGet?, h0]
    · have h0' : pyEq k k0 = false := by simpa using h0
      simp [dictGet?, h0', ih]

theorem setfold_lookup (isT : Obj → Bool) (upd : List (Json × Obj) → Obj → List (Json × Obj))
    (hupd : ∀ m r, upd m r = if isT r && (ridOf r).truthy then dictSet m (ridOf r) r else m)
    (l : List Obj) (m : List (Json × Obj)) (k : Json) :
    dictGet? (l.foldl upd m) k =
      (l.filter (fun r => isT r && (ridOf r).truthy && pyEq (ridOf r) k)).foldl
        (fun _ r => some r) (dictGet? m k) := by
  induction l generalizing m with
  | nil => simp
  | cons r rest ih =>
    rw [List.foldl_cons, hupd]
    by_cases hc : (isT r && (ridOf r).truthy) = true
    · rw [if_pos hc]
      by_cases hpe : pyEq (ridOf r) k = true
      · have hmk : (isT r && (ridOf r).truthy && pyEq (ridOf r) k) = true := by
          simp [Bool.and_eq_true] at hc ⊢
          exact ⟨⟨hc.1, hc.2⟩, hpe⟩
        rw [List.filter_cons_of_pos (by simpa using hmk), List.foldl_cons, ih]
        have : dictGet? (dictSet m (ridOf r) r) k = some r := by
          rw [dictGet?_set, if_pos (by rwa [pyEq_symm] at hpe)]
        rw [this]
      · have hpe' : pyEq (ridOf r) k = false := by simpa using hpe
        have hmk : (isT r && (ridOf r).truthy && pyEq (ridOf r) k) = false := by
          simp [hpe']
        rw [List.filter_cons_of_neg (by simp [hmk]), ih]
        have : dictGet? (dictSet m (ridOf r) r) k = dictGet? m k := by
          rw [dictGet?_set, if_neg]
          intro hq
          rw [pyEq_symm] at hq
          simp [hq] at hpe'
        rw [this]
    · rw [if_neg hc]
      have hmk : (isT r && (ridOf r).truthy && pyEq (ridOf r) k) = false := by
        rcases Bool.not_eq_true _ |>.mp hc with h
        simp [Bool.and_eq_true] at h ⊢
        intro h1 h2
        exact absurd (h h1) (by simp [h2])
      rw [List.filter_cons_of_neg (by simp [hmk]), ih]

theorem foldl_replace (fl : List Obj) (init : Option Obj) :
    fl.foldl (fun _ r => some r) init = fl.getLast?.elim init some := by
  induction fl generalizing init with
  | nil => rfl
  | cons r fl ih =>
    rw [List.foldl_cons, ih]
    cases fl with
    | nil => rfl
    | cons r2 fl2 => rfl

/-- The ids of `request` records, in input order (merger.py lines 57-58). -/
def reqIds (l : List Obj) : List Json :=
  l.filterMap fun r => if isReqT r then objGet r "id" else none

/-- First-occurrence deduplication under Python `==` (the key set of a dict
built by insertion). -/
def pyDedup (ids : List Json) : List Json :=
  ids.foldl (fun acc i => if acc.any (fun k => pyEq i k) then acc else acc ++ [i]) []

theorem any_map_fst {α : Type} (m : List (Json × α)) (p : Json → Bool) :
    (m.map Prod.fst).any p = m.any fun e => p e.1 := by
  induction m with
  | nil => rfl
  | cons e t ih => simp [ih]

theorem reqfold_keys (l : List Obj) (m : List (Json × Obj)) :
    (l.foldl reqUpd m).map Prod.fst =
      (reqIds l).foldl (fun acc i => if acc.any (fun k => pyEq i k) then acc else acc ++ [i])
        (m.map Prod.fst) := by
  induction l generalizing m with
  | nil => simp [reqIds]
  | cons r rest ih =>
    rw [List.foldl_cons]
    by_cases hr : isReqT r = true
    · cases hid : objGet r "id" with
      | none =>
        have h1 : reqUpd m r = m := by simp [reqUpd, hr, hid]
        have h2 : reqIds (r :: rest) = reqIds rest := by simp [reqIds, hr, hid]
        rw [h1, h2, ih]
      | some i =>
        have h1 : reqUpd m r = dictSet m i r := by simp [reqUpd, hr, hid]
        have h2 : reqIds (r :: rest) = i :: reqIds rest := by simp [reqIds, hr, hid]
        rw [h1, h2, List.foldl_cons, ih, dictSet_keys, dictGet?_isSome_any]
        congr 1
        rw [any_map_fst]
    · have hr' : isReqT r = false := by simpa using hr
      have h1 : reqUpd m r = m := by simp [reqUpd, hr']
      have h2 : reqIds (r :: rest) = reqIds rest := by simp [reqIds, hr']
      rw [h1, h2, ih]

/-! ### Characterization of the classification loop -/

theorem classifyEntry_inv (jp : String → Option Json) (isoOk : String → Bool) (st : GroupSt)
    (rid : Json) (req : Obj) (r? : Option MergedRecord) (c : ReqClass)
    (h : classifyEntry jp isoOk st rid req = some (r?, c)) :
    (∃ clist sorted rec,
        dictGet? st.chunks rid = some clist ∧
        pySortByKey (fun c0 => objGetD c0 "chunk_index" (.num 0)) clist = some sorted ∧
        r? = some rec ∧ c = ReqClass.streaming sorted.length ∧
        rec.request_id = rid ∧ rec.chunk_count = sorted.length ∧
        rec.response_status = (match sorted with
          | [] => Json.num 0
          | c0 :: _ => objGetD ((dictGet? st.metas rid).getD []) "status_code"
              (objGetD c0 "status_code" (.num 0))) ∧
        rec.total_latency_ms =
          objGetD ((dictGet? st.metas rid).getD []) "total_latency_ms" (.num 0)) ∨
    (∃ resp rec,
        dictGet? st.chunks rid = none ∧ dictGet? st.nonStreaming rid = some resp ∧
        r? = some rec ∧ c = ReqClass.nonStreamingR ∧
        rec.request_id = rid ∧ rec.chunk_count = 0) ∨
    (dictGet? st.chunks rid = none ∧ dictGet? st.nonStreaming rid = none ∧
        r? = none ∧ c = ReqClass.incomplete) := by
  unfold classifyEntry at h
  cases hch : dictGet? st.chunks rid with
  | some clist =>
    simp only [hch] at h
    cases hsort : pySortByKey (fun c0 => objGetD c0 "chunk_index" (.num 0)) clist with
    | none =>
      simp only [hsort] at h
      exact Option.noConfusion h
    | some sorted =>
      simp only [hsort] at h
      cases htext : extractTextFromChunks sorted with
      | none =>
      simp only [htext] at h
      exact Option.noConfusion h
      | some text =>
        simp only [htext] at h
        cases htc : extractToolCallsFromChunks jp sorted with
        | none =>
      simp only [htc] at h
      exact Option.noConfusion h
        | some tcs =>
          simp only [htc] at h
          have hp := Option.some.inj h
          injection hp with h1 h2
          left
          exact ⟨clist, sorted, _, rfl, hsort, h1.symm, h2.symm, rfl, rfl, rfl, rfl⟩
  | none =>
    simp only [hch] at h
    cases hresp : dictGet? st.nonStreaming rid with
    | some resp =>
      simp only [hresp] at h
      cases hb : objGetD resp "body" .null with
      | obj kvs =>
        simp only [hb] at h
        cases htext : extractTextFromBody kvs with
        | none =>
      simp only [htext] at h
      exact Option.noConfusion h
        | some t =>
          simp only [htext] at h
          cases htc : extractToolCallsFromBody kvs with
          | none =>
      simp only [htc] at h
      exact Option.noConfusion h
          | some tc =>
            simp only [htc] at h
            have hp := Option.some.inj h
            injection hp with h1 h2
            exact Or.inr (Or.inl ⟨resp, _, rfl, rfl, h1.symm, h2.symm, rfl, rfl⟩)
      | str s =>
        simp only [hb] at h
        have hp := Option.some.inj h
        injection hp with h1 h2
        exact Or.inr (Or.inl ⟨resp, _, rfl, rfl, h1.symm, h2.symm, rfl, rfl⟩)
      | null =>
        simp only [hb] at h
        have hp := Option.some.inj h
        injection hp with h1 h2
        exact Or.inr (Or.inl ⟨resp, _, rfl, rfl, h1.symm, h2.symm, rfl, rfl⟩)
      | bool b =>
        simp only [hb] at h
        have hp := Option.some.inj h
        injection hp with h1 h2
        exact Or.inr (Or.inl ⟨resp, _, rfl, rfl, h1.symm, h2.symm, rfl, rfl⟩)
      | num n =>
        simp only [hb] at h
        have hp := Option.some.inj h
        injection hp with h1 h2
        exact Or.inr (Or.inl ⟨resp, _, rfl, rfl, h1.symm, h2.symm, rfl, rfl⟩)
      | arr xs =>
        simp only [hb] at h
        have hp := Option.some.inj h
        injection hp with h1 h2
        exact Or.inr (Or.inl ⟨resp, _, rfl, rfl, h1.symm, h2.symm, rfl, rfl⟩)
    | none =>
      simp only [hresp] at h
      cases rid with
      | str s =>
        have hp := Option.some.inj h
        injection hp with h1 h2
        exact Or.inr (Or.inr ⟨rfl, rfl, h1.symm, h2.symm⟩)
      | null => simp at h
      | bool b => simp at h
      | num n => simp at h
      | arr xs => simp at h
      | obj kvs => simp at h

theorem classifyAll_sums (jp : String → Option Json) (isoOk : String → Bool) (st : GroupSt)
    (l : List (Json × Obj)) (stats : Stats) (recs : List MergedRecord)
    {out : Stats × List MergedRecord}
    (h : classifyAll jp isoOk st l stats recs = some out) :
    out.1.total_requests = stats.total_requests ∧
    out.1.streaming_requests + out.1.non_streaming_requests + out.1.incomplete_requests =
      stats.streaming_requests + stats.non_streaming_requests + stats.incomplete_requests
        + l.length := by
  induction l generalizing stats recs with
  | nil =>
    simp only [classifyAll] at h
    rcases Option.some.inj h with rfl
    simp
  | cons e rest ih =>
    obtain ⟨rid, req⟩ := e
    simp only [classifyAll] at h
    cases hcls : classifyEntry jp isoOk st rid req with
    | none =>
      simp only [hcls] at h
      exact Option.noConfusion h
    | some rc =>
      obtain ⟨r?, c⟩ := rc
      simp only [hcls] at h
      have := ih _ _ h
      rcases this with ⟨h1, h2⟩
      refine ⟨?_, ?_⟩
      · rw [h1]
        cases c <;> simp [applyStats]
      · rw [h2]
        cases c <;> simp [applyStats] <;> omega

theorem classifyAll_records (jp : String → Option Json) (isoOk : String → Bool) (st : GroupSt)
    (l : List (Json × Obj)) (stats : Stats) (recs : List MergedRecord)
    {out : Stats × List MergedRecord}
    (h : classifyAll jp isoOk st l stats recs = some out) :
    ∃ nr, out.2 = recs ++ nr ∧
      out.1.total_chunks_processed =
        stats.total_chunks_processed + (nr.map (fun rec => rec.chunk_count)).sum ∧
      ∀ rec ∈ nr, ∃ rid req c, (rid, req) ∈ l ∧
        classifyEntry jp isoOk st rid req = some (some rec, c) := by
  induction l generalizing stats recs with
  | nil =>
    simp only [classifyAll] at h
    rcases Option.some.inj h with rfl
    exact ⟨[], by simp⟩
  | cons e rest ih =>
    obtain ⟨rid, req⟩ := e
    simp only [classifyAll] at h
    cases hcls : classifyEntry jp isoOk st rid req with
    | none =>
      simp only [hcls] at h
      exact Option.noConfusion h
    | some rc =>
      obtain ⟨r?, c⟩ := rc
      simp only [hcls] at h
      rcases ih _ _ h with ⟨nr, hrecs, htcp, hmem⟩
      refine ⟨r?.toList ++ nr, by simpa using hrecs, ?_, ?_⟩
      · rcases classifyEntry_inv jp isoOk st rid req r? c hcls with
          ⟨clist, sorted, rec, _, _, hr, hc, _, hcc, _, _⟩ | ⟨resp, rec, _, _, hr, hc, _, hcc⟩ |
          ⟨_, _, hr, hc⟩
        · subst hr hc
          simp only [applyStats] at htcp
          rw [htcp]
          simp [hcc]
          omega
        · subst hr hc
          simp only [applyStats] at htcp
          rw [htcp]
          simp [hcc]
        · subst hr hc
          simp only [applyStats] at htcp
          rw [htcp]
          simp
      · intro rec hrec
        rcases List.mem_append.mp hrec with hm | hm
        · cases r? with
          | none => simp at hm
          | some rec0 =>
            have : rec = rec0 := by simpa using hm
            subst this
            exact ⟨rid, req, c, by simp, hcls⟩
        · rcases hmem rec hm with ⟨rid2, req2, c2, hmem2, hcls2⟩
          exact ⟨rid2, req2, c2, by simp [hmem2], hcls2⟩

/-! ### Claim-level definitions -/

/-- The number of `response_chunk` events carrying request id `k`
(equality of ids is Python `==`). -/
def countChunksFor (records : List Obj) (k : Json) : Nat :=
  (records.filter fun r => isChunkT r && pyEq (ridOf r) k).length

/-- The `response_meta` event for request id `k` that the merger uses
(the last one in input order wins, as in the grouping dict). -/
def metaFor (records : List Obj) (k : Json) : Option Obj :=
  (records.filter (matchesMeta k)).getLast?

/-- The `response_chunk` events grouped under request id `k`, in input
order. -/
def chunksFor (records : List Obj) (k : Json) : List Obj :=
  records.filter (matchesChunk k)

theorem pySortByKey_length {α : Type} (key : α → Json) {l s : List α}
    (h : pySortByKey key l = some s) : s.length = l.length := by
  unfold pySortByKey at h
  split at h
  · rw [← Option.some.inj h]
    exact pySortB_length _ _
  · exact Option.noConfusion h

/-- Unpacking a successful merge into its grouping state. -/
theorem merge_inv (jp : String → Option Json) (isoOk : String → Bool) (records : List Obj)
    {out : Stats × List MergedRecord} (h : merge jp isoOk records = some out) :
    (∀ r ∈ records, stepOk r = true) ∧
    classifyAll jp isoOk
      { requests := records.foldl reqUpd [], chunks := records.foldl chunkUpd [],
        metas := records.foldl metaUpd [], nonStreaming := records.foldl respUpd [] }
      (records.foldl reqUpd [])
      { total_requests := (records.foldl reqUpd ([] : List (Json × Obj))).length,
        streaming_requests := 0, non_streaming_requests := 0, incomplete_requests := 0,
        total_chunks_processed := 0 } [] = some out := by
  unfold merge at h
  cases hg : groupRecords records initGroup with
  | none =>
    simp only [hg] at h
    exact Option.noConfusion h
  | some st =>
    simp only [hg] at h
    rw [groupRecords_eq] at hg
    by_cases hall : records.all stepOk = true
    · rw [if_pos hall] at hg
      obtain rfl := (Option.some.inj hg).symm
      refine ⟨by simpa using hall, ?_⟩
      simpa [initGroup] using h
    · rw [if_neg hall] at hg
      exact Option.noConfusion hg

/-- C1: for every input event sequence, a successful merge returns
statistics with `total_requests` equal to the sum of the three
classification counters, and `total_requests` is the number of distinct
ids among `request` events. -/
theorem C1_stats_partition (jp : String → Option Json) (isoOk : String → Bool)
    (records : List Obj) (stats : Stats) (recs : List MergedRecord)
    (h : merge jp isoOk records = some (stats, recs)) :
    stats.total_requests = stats.streaming_requests + stats.non_streaming_requests
        + stats.incomplete_requests ∧
    stats.total_requests = (pyDedup (reqIds records)).length := by
  rcases merge_inv jp isoOk records h with ⟨-, hcls⟩
  have hsums := classifyAll_sums _ _ _ _ _ _ hcls
  simp only at hsums
  have hlen : (records.foldl reqUpd ([] : List (Json × Obj))).length =
      (pyDedup (reqIds records)).length := by
    have hkeys := reqfold_keys records []
    simp only [List.map_nil] at hkeys
    have h2 : (records.foldl reqUpd ([] : List (Json × Obj))).length
        = (List.map Prod.fst (records.foldl reqUpd [])).length := by
      rw [List.length_map]
    rw [h2, hkeys]
    rfl
  constructor
  · rw [hsums.1, hsums.2]
    omega
  · rw [hsums.1, hlen]

/-- C10: a `response_chunk`, `response_meta` or `response` event whose
`request_id` is missing or falsy is silently discarded: removing it from
the input leaves the whole merge result unchanged. -/
theorem C10_falsy_request_id_discarded (jp : String → Option Json) (isoOk : String → Bool)
    (pre post : List Obj) (ev : Obj)
    (htype : isChunkT ev = true ∨ isMetaT ev = true ∨ isRespT ev = true)
    (hfalsy : (objGetD ev "request_id" .null).truthy = false) :
    merge jp isoOk (pre ++ ev :: post) = merge jp isoOk (pre ++ post) := by
  have hnotreq : isReqT ev = false := by
    rcases htype with ht | ht | ht <;>
      · simp only [isChunkT, isMetaT, isRespT, decide_eq_true_eq] at ht
        simp [isReqT, ht]
  have hastep : stepOk ev = true := by
    rcases htype with ht | ht | ht <;>
      simp [stepOk, hnotreq, ht, ridOf, hfalsy]
  have hru : ∀ m, reqUpd m ev = m := fun m => by simp [reqUpd, hnotreq]
  have hcu : ∀ m, chunkUpd m ev = m := fun m => by simp [chunkUpd, ridOf, hfalsy]
  have hmu : ∀ m, metaUpd m ev = m := fun m => by simp [metaUpd, ridOf, hfalsy]
  have hpu : ∀ m, respUpd m ev = m := fun m => by simp [respUpd, ridOf, hfalsy]
  unfold merge
  rw [groupRecords_eq, groupRecords_eq]
  have hallEq : ((pre ++ ev :: post).all stepOk) = ((pre ++ post).all stepOk) := by
    simp [List.all_append, List.all_cons, hastep]
  rw [hallEq]
  by_cases hA : ((pre ++ post).all stepOk) = true
  · rw [if_pos hA, if_pos hA]
    simp only [initGroup]
    have e1 : (pre ++ ev :: post).foldl reqUpd ([] : List (Json × Obj)) =
        (pre ++ post).foldl reqUpd [] := by
      simp [List.foldl_append, hru]
    have e2 : (pre ++ ev :: post).foldl chunkUpd ([] : List (Json × List Obj)) =
        (pre ++ post).foldl chunkUpd [] := by
      simp [List.foldl_append, hcu]
    have e3 : (pre ++ ev :: post).foldl metaUpd ([] : List (Json × Obj)) =
        (pre ++ post).foldl metaUpd [] := by
      simp [List.foldl_append, hmu]
    have e4 : (pre ++ ev :: post).foldl respUpd ([] : List (Json × Obj)) =
        (pre ++ post).foldl respUpd [] := by
      simp [List.foldl_append, hpu]
    rw [e1, e2, e3, e4]
  · rw [if_neg (by simpa using hA), if_neg (by simpa using hA)]

theorem sum_map_filter_pos {α : Type} (f : α → Nat) (l : List α) :
    ((l.filter fun x => 0 < f x).map f).sum = (l.map f).sum := by
  induction l with
  | nil => rfl
  | cons x t ih =>
    by_cases hx : 0 < f x
    · rw [List.filter_cons_of_pos (by simpa using hx)]
      simp [ih]
    · rw [List.filter_cons_of_neg (by simpa using hx)]
      have : f x = 0 := by omega
      simp [ih, this]

theorem chunks_entry (records : List Obj) (k : Json) {clist : List Obj}
    (h : dictGet? (records.foldl chunkUpd []) k = some clist) :
    clist = chunksFor records k ∧ clist ≠ [] := by
  rw [chunks_lookup] at h
  by_cases he : (records.filter (matchesChunk k)).isEmpty
  · rw [if_pos he] at h
    exact Option.noConfusion h
  · rw [if_neg he] at h
    have hc := Option.some.inj h
    have hgd : (dictGet? ([] : List (Json × List Obj)) k).getD [] = [] := rfl
    rw [hgd, List.nil_append] at hc
    refine ⟨by rw [← hc]; rfl, ?_⟩
    intro hnil
    rw [← hc] at hnil
    simp [hnil] at he

theorem truthy_of_chunksFor_ne_nil {records : List Obj} {k : Json}
    (h : chunksFor records k ≠ []) : k.truthy = true := by
  rcases List.exists_mem_of_ne_nil _ h with ⟨r0, hr0⟩
  have hm := List.of_mem_filter hr0
  simp only [matchesChunk, Bool.and_assoc, Bool.and_eq_true] at hm
  rw [← pyEq_truthy hm.2.2]
  exact hm.2.1

theorem chunksFor_length_eq_count {records : List Obj} {k : Json} (hk : k.truthy = true) :
    (chunksFor records k).length = countChunksFor records k := by
  unfold chunksFor countChunksFor
  congr 1
  apply List.filter_congr
  intro r _
  by_cases hpe : pyEq (ridOf r) k = true
  · have ht : (ridOf r).truthy = true := by rw [pyEq_truthy hpe]; exact hk
    simp [matchesChunk, hpe, ht]
  · have hpe' : pyEq (ridOf r) k = false := by simpa using hpe
    simp [matchesChunk, hpe']

theorem metas_entry (records : List Obj) (k : Json) :
    dictGet? (records.foldl metaUpd []) k = metaFor records k := by
  unfold metaFor
  rw [setfold_lookup isMetaT metaUpd (fun m r => rfl) records [] k, foldl_replace]
  cases hlast : (records.filter (matchesMeta k)).getLast? with
  | none =>
    have : records.filter (fun r => isMetaT r && (ridOf r).truthy && pyEq (ridOf r) k)
        = records.filter (matchesMeta k) := rfl
    rw [this, hlast]
    rfl
  | some m =>
    have : records.filter (fun r => isMetaT r && (ridOf r).truthy && pyEq (ridOf r) k)
        = records.filter (matchesMeta k) := rfl
    rw [this, hlast]
    rfl

/-- C2: for a successful merge, every streaming record's `chunk_count` is
the number of `response_chunk` events carrying its request id, and
`total_chunks_processed` is the sum of `chunk_count` over the streaming
records. -/
theorem C2_chunk_counts (jp : String → Option Json) (isoOk : String → Bool)
    (records : List Obj) (stats : Stats) (recs : List MergedRecord)
    (h : merge jp isoOk records = some (stats, recs)) :
    (∀ rec ∈ recs, 0 < rec.chunk_count →
        rec.chunk_count = countChunksFor records rec.request_id) ∧
    stats.total_chunks_processed =
      ((recs.filter fun rec => 0 < rec.chunk_count).map fun rec => rec.chunk_count).sum := by
  rcases merge_inv jp isoOk records h with ⟨-, hcls⟩
  rcases classifyAll_records _ _ _ _ _ _ hcls with ⟨nr, hrecs, htcp, hmem⟩
  simp only [List.nil_append] at hrecs
  subst hrecs
  constructor
  · intro rec hrec hpos
    rcases hmem rec hrec with ⟨rid, req, c, -, hentry⟩
    rcases classifyEntry_inv _ _ _ _ _ _ _ hentry with
      ⟨clist, sorted, rec2, hch, hsort, hr, -, hrid, hcc, -, -⟩ |
      ⟨resp, rec2, -, -, hr, -, hrid, hcc⟩ | ⟨-, -, hr, -⟩
    · have hrec2 : rec2 = rec := (Option.some.inj hr).symm
      subst hrec2
      simp only at hch
      rcases chunks_entry records rid hch with ⟨hclist, hne⟩
      have hk : rid.truthy = true := truthy_of_chunksFor_ne_nil (hclist ▸ hne)
      rw [hcc, pySortByKey_length _ hsort, hclist, ← hrid]
      rw [← hrid] at hk
      exact chunksFor_length_eq_count hk
    · have hrec2 : rec2 = rec := (Option.some.inj hr).symm
      subst hrec2
      rw [hcc] at hpos
      exact absurd hpos (by simp)
    · exact Option.noConfusion hr
  · rw [htcp]
    simp only [Nat.zero_add]
    rw [sum_map_filter_pos]

/-- C9: for a successful merge, every streaming record takes its
`response_status` from the meta when the meta carries one, else from the
first chunk after sorting by `chunk_index`, and its `total_latency_ms`
from the meta when present, else 0. -/
theorem C9_meta_fallbacks (jp : String → Option Json) (isoOk : String → Bool)
    (records : List Obj) (stats : Stats) (recs : List MergedRecord)
    (h : merge jp isoOk records = some (stats, recs)) :
    ∀ rec ∈ recs, 0 < rec.chunk_count →
      ∃ sorted c0,
        pySortByKey (fun c1 => objGetD c1 "chunk_index" (.num 0))
          (chunksFor records rec.request_id) = some sorted ∧
        sorted.head? = some c0 ∧
        (∀ m v, metaFor records rec.request_id = some m →
            objGet m "status_code" = some v → rec.response_status = v) ∧
        (metaFor records rec.request_id = none →
            rec.response_status = objGetD c0 "status_code" (.num 0)) ∧
        (∀ m v, metaFor records rec.request_id = some m →
            objGet m "total_latency_ms" = some v → rec.total_latency_ms = v) ∧
        ((metaFor records rec.request_id = none ∨
            ∃ m, metaFor records rec.request_id = some m ∧
              objGet m "total_latency_ms" = none) →
            rec.total_latency_ms = .num 0) := by
  rcases merge_inv jp isoOk records h with ⟨-, hcls⟩
  rcases classifyAll_records _ _ _ _ _ _ hcls with ⟨nr, hrecs, -, hmem⟩
  simp only [List.nil_append] at hrecs
  subst hrecs
  intro rec hrec hpos
  rcases hmem rec hrec with ⟨rid, req, c, -, hentry⟩
  rcases classifyEntry_inv _ _ _ _ _ _ _ hentry with
    ⟨clist, sorted, rec2, hch, hsort, hr, -, hrid, hcc, hstatus, hlat⟩ |
    ⟨resp, rec2, -, -, hr, -, hrid, hcc⟩ | ⟨-, -, hr, -⟩
  · have hrec2 : rec2 = rec := (Option.some.inj hr).symm
    subst hrec2
    simp only at hch hstatus hlat
    rcases chunks_entry records rid hch with ⟨hclist, hne⟩
    subst hclist
    have hslen : sorted.length = (chunksFor records rid).length := pySortByKey_length _ hsort
    have hsne : sorted ≠ [] := by
      intro hnil
      rw [hcc, hnil] at hpos
      simp at hpos
    cases sorted with
    | nil => exact absurd rfl hsne
    | cons c0 stail =>
      have hmeta := metas_entry records rid
      rw [hmeta] at hstatus hlat
      rw [hrid]
      refine ⟨c0 :: stail, c0, hsort, rfl, ?_, ?_, ?_, ?_⟩
      · intro m v hm hv
        rw [hstatus, hm]
        simp [objGetD, hv]
      · intro hm
        rw [hstatus, hm]
        simp [objGetD, objGet]
      · intro m v hm hv
        rw [hlat, hm]
        simp [objGetD, hv]
      · intro hm
        rcases hm with hm | ⟨m, hm, hv⟩
        · rw [hlat, hm]
          simp [objGetD, objGet]
        · rw [hlat, hm]
          simp [objGetD, hv]
  · have hrec2 : rec2 = rec := (Option.some.inj hr).symm
    subst hrec2
    rw [hcc] at hpos
    exact absurd hpos (by simp)
  · exact Option.noConfusion hr

/-! ### Characterization of the tool-call assembler -/

/-- The index/id/name registered by a chunk, when it is a `tool_use`
`content_block_start` (merger.py lines 225-231). -/
def startKey? (c : Obj) : Option (Json × Json × Json) :=
  match objGetD c "content" (.obj []) with
  | .obj kvs =>
    if objGetD kvs "type" (.str "") = .str "content_block_start" then
      match objGetD kvs "content_block" (.obj []) with
      | .obj b =>
        if objGetD b "type" .null = .str "tool_use" then
          some (objGetD kvs "index" .null, objGetD b "id" (.str ""), objGetD b "name" (.str ""))
        else none
      | _ => none
    else none
  | _ => none

/-- The index/fragment appended by a chunk, when it is an
`input_json_delta` `content_block_delta` with a truthy `partial_json` and
a non-null index (merger.py lines 234-239). -/
def deltaKey? (c : Obj) : Option (Json × Json) :=
  match objGetD c "content" (.obj []) with
  | .obj kvs =>
    if objGetD kvs "type" (.str "") = .str "content_block_start" then none
    else if objGetD kvs "type" (.str "") = .str "content_block_delta" then
      match objGetD kvs "delta" (.obj []) with
      | .obj d =>
        if objGetD d "type" .null = .str "input_json_delta" then
          if (objGetD d "partial_json" (.str "")).truthy then
            if objGetD kvs "index" .null = .null then none
            else some (objGetD kvs "index" .null, objGetD d "partial_json" (.str ""))
          else none
        else none
      | _ => none
    else none
  | _ => none

theorem toolStep_char (st : ToolSt) (c : Obj) :
    toolStep st c =
      match startKey? c with
      | some (i, tid, tname) =>
        if i.hashable then some { st with data := dictSet st.data i (tid, tname) } else none
      | none =>
        match deltaKey? c with
        | some (i, pj) =>
          if i.hashable then some { st with parts := dictAppend st.parts i pj } else none
        | none => some st := by
  cases hco : objGetD c "content" (.obj []) with
  | obj kvs =>
    by_cases h1 : objGetD kvs "type" (.str "") = .str "content_block_start"
    · cases hcb : objGetD kvs "content_block" (.obj []) with
      | obj b =>
        by_cases h2 : objGetD b "type" .null = .str "tool_use"
        · simp [toolStep, startKey?, deltaKey?, hco, h1, hcb, h2]
        · simp [toolStep, startKey?, deltaKey?, hco, h1, hcb, h2]
      | null => simp [toolStep, startKey?, deltaKey?, hco, h1, hcb]
      | bool b => simp [toolStep, startKey?, deltaKey?, hco, h1, hcb]
      | num n => simp [toolStep, startKey?, deltaKey?, hco, h1, hcb]
      | str s => simp [toolStep, startKey?, deltaKey?, hco, h1, hcb]
      | arr xs => simp [toolStep, startKey?, deltaKey?, hco, h1, hcb]
    · by_cases h2 : objGetD kvs "type" (.str "") = .str "content_block_delta"
      · cases hd : objGetD kvs "delta" (.obj []) with
        | obj d =>
          by_cases h3 : objGetD d "type" .null = .str "input_json_delta"
          · by_cases h4 : (objGetD d "partial_json" (.str "")).truthy = true
            · by_cases h5 : objGetD kvs "index" .null = .null
              · simp [toolStep, startKey?, deltaKey?, hco, h1, h2, hd, h3, h4, h5]
              · simp [toolStep, startKey?, deltaKey?, hco, h1, h2, hd, h3, h4, h5]
            · simp [toolStep, startKey?, deltaKey?, hco, h1, h2, hd, h3, h4]
          · simp [toolStep, startKey?, deltaKey?, hco, h1, h2, hd, h3]
        | null => simp [toolStep, startKey?, deltaKey?, hco, h1, h2, hd]
        | bool b => simp [toolStep, startKey?, deltaKey?, hco, h1, h2, hd]
        | num n => simp [toolStep, startKey?, deltaKey?, hco, h1, h2, hd]
        | str s => simp [toolStep, startKey?, deltaKey?, hco, h1, h2, hd]
        | arr xs => simp [toolStep, startKey?, deltaKey?, hco, h1, h2, hd]
      · simp [toolStep, startKey?, deltaKey?, hco, h1, h2]
  | null => simp [toolStep, startKey?, deltaKey?, hco]
  | bool b => simp [toolStep, startKey?, deltaKey?, hco]
  | num n => simp [toolStep, startKey?, deltaKey?, hco]
  | str s => simp [toolStep, startKey?, deltaKey?, hco]
  | arr xs => simp [toolStep, startKey?, deltaKey?, hco]

theorem extractTC_inv (jp : String → Option Json) (chunks : List Obj)
    {tcs : List ToolCall} (h : extractToolCallsFromChunks jp chunks = some tcs) :
    ∃ st sortedD, toolFold chunks { data := [], parts := [] } = some st ∧
      pySortByKey (fun e => e.1) st.data = some sortedD ∧
      finalizeAll jp st.parts sortedD = some tcs := by
  unfold extractToolCallsFromChunks at h
  cases hf : toolFold chunks { data := [], parts := [] } with
  | none =>
    simp only [hf] at h
    exact Option.noConfusion h
  | some st =>
    simp only [hf] at h
    cases hs : pySortByKey (fun e => e.1) st.data with
    | none =>
      simp only [hs] at h
      exact Option.noConfusion h
    | some sortedD =>
      simp only [hs] at h
      exact ⟨st, sortedD, rfl, hs, h⟩

theorem finalizeAll_mem (jp : String → Option Json) (parts : List (Json × List Json))
    (l : List (Json × Json × Json)) {tcs : List ToolCall}
    (h : finalizeAll jp parts l = some tcs) :
    ∀ e ∈ l, ∃ tc ∈ tcs, finalizeEntry jp parts e = some tc := by
  induction l generalizing tcs with
  | nil => simp
  | cons e0 rest ih =>
    simp only [finalizeAll] at h
    cases hfe : finalizeEntry jp parts e0 with
    | none =>
      simp only [hfe] at h
      exact Option.noConfusion h
    | some tc0 =>
      simp only [hfe] at h
      cases hfa : finalizeAll jp parts rest with
      | none =>
        simp only [hfa] at h
        exact Option.noConfusion h
      | some tcs0 =>
        simp only [hfa] at h
        obtain rfl := (Option.some.inj h).symm
        intro e he
        rcases List.mem_cons.mp he with rfl | he
        · exact ⟨tc0, by simp, hfe⟩
        · rcases ih hfa e he with ⟨tc, htc, hfe2⟩
          exact ⟨tc, by simp [htc], hfe2⟩

theorem toolFold_keysDistinct (chunks : List Obj) (st : ToolSt) {st2 : ToolSt}
    (h : toolFold chunks st = some st2) (hd : KeysDistinct st.data) :
    KeysDistinct st2.data := by
  induction chunks generalizing st with
  | nil =>
    simp only [toolFold] at h
    obtain rfl := Option.some.inj h
    exact hd
  | cons c rest ih =>
    simp only [toolFold] at h
    cases hs : toolStep st c with
    | none =>
      simp only [hs] at h
      exact Option.noConfusion h
    | some stm =>
      simp only [hs] at h
      refine ih stm h ?_
      rw [toolStep_char] at hs
      cases hsk : startKey? c with
      | some e =>
        obtain ⟨i, tid, tname⟩ := e
        simp only [hsk] at hs
        by_cases hh : i.hashable = true
        · rw [if_pos hh] at hs
          obtain rfl := (Option.some.inj hs).symm
          exact keysDistinct_dictSet i (tid, tname) hd
        · rw [if_neg hh] at hs
          exact Option.noConfusion hs
      | none =>
        simp only [hsk] at hs
        cases hdk : deltaKey? c with
        | some e =>
          obtain ⟨i, pj⟩ := e
          simp only [hdk] at hs
          by_cases hh : i.hashable = true
          · rw [if_pos hh] at hs
            obtain rfl := (Option.some.inj hs).symm
            exact hd
          · rw [if_neg hh] at hs
            exact Option.noConfusion hs
        | none =>
          simp only [hdk] at hs
          obtain rfl := (Option.some.inj hs).symm
          exact hd

/-- C5: at finalization, for every registered content-block index the
invocation's `input` is the parsed value when the concatenated buffer
parses, the raw concatenated string when a non-empty buffer fails to
parse, and null when the buffer is empty. -/
theorem C5_tool_input_trichotomy (jp : String → Option Json) (chunks : List Obj)
    (tcs : List ToolCall) (h : extractToolCallsFromChunks jp chunks = some tcs) :
    ∃ st sortedD, toolFold chunks { data := [], parts := [] } = some st ∧
      pySortByKey (fun e => e.1) st.data = some sortedD ∧
      ∀ e ∈ sortedD, ∃ s tc,
        pyJoin ((dictGet? st.parts e.1).getD []) = some s ∧ tc ∈ tcs ∧
        tc.id = e.2.1 ∧ tc.name = e.2.2 ∧
        (s = "" → tc.input = .null) ∧
        (∀ v, s ≠ "" → jp s = some v → tc.input = v) ∧
        (s ≠ "" → jp s = none → tc.input = .str s) := by
  rcases extractTC_inv jp chunks h with ⟨st, sortedD, hf, hs, hfa⟩
  refine ⟨st, sortedD, hf, hs, ?_⟩
  intro e he
  rcases finalizeAll_mem jp st.parts sortedD hfa e he with ⟨tc, htc, hfe⟩
  unfold finalizeEntry at hfe
  cases hj : pyJoin ((dictGet? st.parts e.1).getD []) with
  | none =>
    rw [hj] at hfe
    exact Option.noConfusion hfe
  | some s =>
    rw [hj] at hfe
    obtain rfl := (Option.some.inj hfe).symm
    refine ⟨s, _, rfl, htc, rfl, rfl, ?_, ?_, ?_⟩
    · intro hse
      simp [toolFinalizeInput, hse]
    · intro v hse hjp
      simp [toolFinalizeInput, hse, hjp]
    · intro hse hjp
      simp [toolFinalizeInput, hse, hjp]

/-- C8: the emitted tool invocations are the finalization of the
registered entries sorted strictly ascending by content-block index. -/
theorem C8_ascending_order (jp : String → Option Json) (chunks : List Obj)
    (tcs : List ToolCall) (h : extractToolCallsFromChunks jp chunks = some tcs) :
    ∃ st sortedD, toolFold chunks { data := [], parts := [] } = some st ∧
      pySortByKey (fun e => e.1) st.data = some sortedD ∧
      sortedD.Pairwise (fun a b => pyLt a.1 b.1 = some true) ∧
      finalizeAll jp st.parts sortedD = some tcs := by
  rcases extractTC_inv jp chunks h with ⟨st, sortedD, hf, hs, hfa⟩
  have hkd : st.data.Pairwise
      (fun x y : Json × Json × Json => pyEq x.1 y.1 = false) :=
    toolFold_keysDistinct chunks _ hf (by simp [KeysDistinct])
  exact ⟨st, sortedD, hf, hs,
    (pySortByKey_strict (fun e : Json × Json × Json => e.1) hkd hs).1, hfa⟩

/-- The chunk record of a streaming `tool_use` `content_block_start`. -/
def mkStart (i tid tname : Json) : Obj :=
  [("content", .obj [("type", .str "content_block_start"), ("index", i),
    ("content_block", .obj [("type", .str "tool_use"), ("id", tid), ("name", tname)])])]

/-- The chunk record of a streaming `input_json_delta` fragment. -/
def mkDelta (i : Json) (p : String) : Obj :=
  [("content", .obj [("type", .str "content_block_delta"), ("index", i),
    ("delta", .obj [("type", .str "input_json_delta"), ("partial_json", .str p)])])]

theorem startKey?_mkStart (i tid tname : Json) :
    startKey? (mkStart i tid tname) = some (i, tid, tname) := rfl

theorem deltaKey?_mkStart (i tid tname : Json) :
    deltaKey? (mkStart i tid tname) = none := rfl

theorem startKey?_mkDelta (i : Json) (p : String) : startKey? (mkDelta i p) = none := rfl

theorem deltaKey?_mkDelta (i : Json) (p : String) :
    deltaKey? (mkDelta i p) =
      if p = "" then none else if i = .null then none else some (i, .str p) := by
  by_cases hp : p = ""
  · simp [deltaKey?, mkDelta, objGetD, objGet, Json.truthy, hp]
  · by_cases hi : i = Json.null
    · simp [deltaKey?, mkDelta, objGetD, objGet, Json.truthy, hp, hi]
    · simp [deltaKey?, mkDelta, objGetD, objGet, Json.truthy, hp, hi]

theorem pyJoin_map_str (ps : List String) :
    pyJoin (ps.map .str) = some (ps.foldr (· ++ ·) "") := by
  induction ps with
  | nil => rfl
  | cons p t ih => simp [pyJoin, ih]

theorem foldr_append_empty_of_all_ne {ps : List String}
    (hne : ∀ p ∈ ps, p ≠ "") (h : ps.foldr (· ++ ·) "" = "") : ps = [] := by
  cases ps with
  | nil => rfl
  | cons p t =>
    exfalso
    simp only [List.foldr_cons] at h
    have hlen := congrArg String.length h
    rw [String.length_append] at hlen
    have h0 : ("" : String).length = 0 := rfl
    rw [h0] at hlen
    have hp0 : p.length = 0 := by omega
    have hpe : p = "" := by
      cases p with
      | mk data =>
        simp [String.length] at hp0
        simp [hp0]
    exact hne p (by simp) hpe

theorem pySortByKey_singleton {α : Type} (key : α → Json) (e : α) :
    pySortByKey key [e] = some [e] := by
  unfold pySortByKey
  rw [if_pos (by simp)]
  rfl

theorem selfAppend_lookup (i : Json) (l : List String) (m : List (Json × List Json)) :
    (dictGet? (l.foldl (fun m0 p => dictAppend m0 i (.str p)) m) i).getD [] =
      (dictGet? m i).getD [] ++ l.map .str := by
  induction l generalizing m with
  | nil => simp
  | cons p t ih =>
    rw [List.foldl_cons, ih]
    rw [dictGet?_append, if_pos (pyEq_refl i)]
    simp

/-- C6: delivering a `partial_json` string as any sequence of non-empty
fragments after one `content_block_start` yields the same invocations as
delivering it whole. -/
theorem C6_split_invariance (jp : String → Option Json) (i tid tname : Json) (s : String)
    (ps : List String) (hne : ∀ p ∈ ps, p ≠ "") (hjoin : ps.foldr (· ++ ·) "" = s) :
    extractToolCallsFromChunks jp (mkStart i tid tname :: ps.map (mkDelta i)) =
      extractToolCallsFromChunks jp [mkStart i tid tname, mkDelta i s] := by
  by_cases hh : i.hashable = true
  · have hstep : ∀ st : ToolSt, toolStep st (mkStart i tid tname) =
        some { st with data := dictSet st.data i (tid, tname) } := by
      intro st
      simp only [toolStep_char, startKey?_mkStart]
      rw [if_pos hh]
    by_cases hi : i = Json.null
    · subst hi
      have hnoop : ∀ (l : List String) (st : ToolSt),
          toolFold (l.map (mkDelta Json.null)) st = some st := by
        intro l
        induction l with
        | nil => intro st; rfl
        | cons p t ih =>
          intro st
          have hstep2 : toolStep st (mkDelta Json.null p) = some st := by
            simp only [toolStep_char, startKey?_mkDelta, deltaKey?_mkDelta]
            by_cases hp : p = "" <;> simp [hp]
          simp only [List.map_cons, toolFold, hstep2]
          exact ih st
      have hfoldL : toolFold (mkStart Json.null tid tname :: ps.map (mkDelta Json.null))
          { data := [], parts := [] } =
          some { data := dictSet [] Json.null (tid, tname), parts := [] } := by
        simp only [toolFold, hstep]
        exact hnoop ps _
      have hfoldR : toolFold [mkStart Json.null tid tname, mkDelta Json.null s]
          { data := [], parts := [] } =
          some { data := dictSet [] Json.null (tid, tname), parts := [] } := by
        simp only [toolFold, hstep]
        have hstep2 : toolStep { data := dictSet [] Json.null (tid, tname), parts := [] }
            (mkDelta Json.null s) =
            some { data := dictSet [] Json.null (tid, tname), parts := [] } := by
          simp only [toolStep_char, startKey?_mkDelta, deltaKey?_mkDelta]
          by_cases hp : s = "" <;> simp [hp]
        simp only [hstep2]
      unfold extractToolCallsFromChunks
      rw [hfoldL, hfoldR]
    · have hstep2 : ∀ (st : ToolSt) (p : String), p ≠ "" →
          toolStep st (mkDelta i p) =
            some { st with parts := dictAppend st.parts i (.str p) } := by
        intro st p hp
        simp [toolStep_char, startKey?_mkDelta, deltaKey?_mkDelta, hp, hi, hh]
      have hfold : ∀ (l : List String) (st : ToolSt), (∀ p ∈ l, p ≠ "") →
          toolFold (l.map (mkDelta i)) st =
            some { st with
              parts := l.foldl (fun m0 p => dictAppend m0 i (.str p)) st.parts } := by
        intro l
        induction l with
        | nil =>
          intro st _
          simp [toolFold]
        | cons p t ih =>
          intro st hl
          have hp : p ≠ "" := hl p (by simp)
          simp only [List.map_cons, toolFold, hstep2 st p hp]
          rw [ih _ (fun q hq => hl q (by simp [hq]))]
          rfl
      by_cases hs0 : s = ""
      · have hps : ps = [] := foldr_append_empty_of_all_ne hne (hs0 ▸ hjoin)
        subst hps
        have hfoldL : toolFold (mkStart i tid tname :: List.map (mkDelta i) [])
            { data := [], parts := [] } =
            some { data := dictSet [] i (tid, tname), parts := [] } := by
          simp only [List.map_nil, toolFold, hstep]
        have hfoldR : toolFold [mkStart i tid tname, mkDelta i s]
            { data := [], parts := [] } =
            some { data := dictSet [] i (tid, tname), parts := [] } := by
          simp only [toolFold, hstep]
          have hstep3 : toolStep { data := dictSet [] i (tid, tname), parts := [] }
              (mkDelta i s) =
              some { data := dictSet [] i (tid, tname), parts := [] } := by
            simp only [toolStep_char, startKey?_mkDelta, deltaKey?_mkDelta]
            simp [hs0]
          simp only [hstep3]
        unfold extractToolCallsFromChunks
        rw [hfoldL, hfoldR]
      · have hfoldL : toolFold (mkStart i tid tname :: ps.map (mkDelta i))
            { data := [], parts := [] } =
            some { data := dictSet [] i (tid, tname),
                   parts := ps.foldl (fun m0 p => dictAppend m0 i (.str p)) [] } := by
          simp only [toolFold, hstep]
          exact hfold ps _ hne
        have hfoldR : toolFold [mkStart i tid tname, mkDelta i s]
            { data := [], parts := [] } =
            some { data := dictSet [] i (tid, tname),
                   parts := dictAppend [] i (.str s) } := by
          simp only [toolFold, hstep]
          simp only [hstep2 _ s hs0]
        unfold extractToolCallsFromChunks
        rw [hfoldL, hfoldR]
        have hdata : dictSet ([] : List (Json × Json × Json)) i (tid, tname) =
            [(i, (tid, tname))] := rfl
        simp only [hdata, pySortByKey_singleton]
        simp only [finalizeAll, finalizeEntry]
        have hlook1 : (dictGet? (ps.foldl (fun m0 p => dictAppend m0 i (.str p))
            ([] : List (Json × List Json))) i).getD [] = ps.map .str := by
          rw [selfAppend_lookup]
          rfl
        have hlook2 : (dictGet? (dictAppend ([] : List (Json × List Json)) i (.str s))
            i).getD [] = [.str s] := by
          rw [dictGet?_append, if_pos (pyEq_refl i)]
          rfl
        simp only [hlook1, hlook2, pyJoin_map_str, hjoin]
        have hjs : pyJoin [Json.str s] = some s := by
          simp [pyJoin]
        rw [hjs]
  · have hnone : ∀ rest, toolFold (mkStart i tid tname :: rest)
        { data := [], parts := [] } = none := by
      intro rest
      simp [toolFold, toolStep_char, startKey?_mkStart, hh]
    unfold extractToolCallsFromChunks
    rw [hnone, hnone]

/-- The chunk is a `tool_use` `content_block_start` registering index `i`
(Python `==` on indexes). -/
def isStartFor (i : Json) (c : Obj) : Bool :=
  match startKey? c with
  | some (k, _, _) => pyEq k i
  | none => false

/-- The chunk is an `input_json_delta` fragment that appends to index `i`. -/
def isDeltaFor (i : Json) (c : Obj) : Bool :=
  match deltaKey? c with
  | some (k, _) => pyEq k i
  | none => false

theorem deltaKey?_of_start {c : Obj} {e : Json × Json × Json}
    (h : startKey? c = some e) : deltaKey? c = none := by
  unfold startKey? at h
  unfold deltaKey?
  cases hco : objGetD c "content" (.obj []) with
  | obj kvs =>
    simp only [hco] at h ⊢
    by_cases h1 : objGetD kvs "type" (.str "") = .str "content_block_start"
    · rw [if_pos h1]
    · rw [if_neg h1] at h
      exact Option.noConfusion h
  | null =>
    simp only [hco] at h
    exact Option.noConfusion h
  | bool b =>
    simp only [hco] at h
    exact Option.noConfusion h
  | num n =>
    simp only [hco] at h
    exact Option.noConfusion h
  | str s =>
    simp only [hco] at h
    exact Option.noConfusion h
  | arr xs =>
    simp only [hco] at h
    exact Option.noConfusion h

theorem pySortByKey_perm {α : Type} (key : α → Json) {l s : List α}
    (h : pySortByKey key l = some s) : List.Perm s l := by
  unfold pySortByKey at h
  split at h
  · rw [← Option.some.inj h]
    exact pySortB_perm _ _
  · exact Option.noConfusion h

theorem finalizeAll_congr (jp : String → Option Json)
    (parts1 parts2 : List (Json × List Json)) (l : List (Json × Json × Json))
    (h : ∀ e ∈ l, dictGet? parts1 e.1 = dictGet? parts2 e.1) :
    finalizeAll jp parts1 l = finalizeAll jp parts2 l := by
  induction l with
  | nil => rfl
  | cons e rest ih =>
    simp only [finalizeAll]
    have he : finalizeEntry jp parts1 e = finalizeEntry jp parts2 e := by
      unfold finalizeEntry
      rw [h e (by simp)]
    rw [he, ih (fun e2 he2 => h e2 (by simp [he2]))]

theorem toolFold_data_away (i : Json) (chunks : List Obj) (st : ToolSt) {st2 : ToolSt}
    (h : toolFold chunks st = some st2)
    (hns : ∀ c ∈ chunks, isStartFor i c = false)
    (hd : ∀ e ∈ st.data, pyEq e.1 i = false) :
    ∀ e ∈ st2.data, pyEq e.1 i = false := by
  induction chunks generalizing st with
  | nil =>
    simp only [toolFold] at h
    obtain rfl := Option.some.inj h
    exact hd
  | cons c rest ih =>
    simp only [toolFold] at h
    cases hs : toolStep st c with
    | none =>
      rw [hs] at h
      exact Option.noConfusion h
    | some stm =>
      rw [hs] at h
      refine ih _ h (fun c2 hc2 => hns c2 (by simp [hc2])) ?_
      rw [toolStep_char] at hs
      cases hsk : startKey? c with
      | some e0 =>
        obtain ⟨k, tid, tname⟩ := e0
        simp only [hsk] at hs
        have hki : pyEq k i = false := by
          have := hns c (by simp)
          simpa [isStartFor, hsk] using this
        by_cases hkh : k.hashable = true
        · rw [if_pos hkh] at hs
          obtain rfl := (Option.some.inj hs).symm
          intro e he
          have hkey : e.1 ∈ (dictSet st.data k (tid, tname)).map Prod.fst :=
            List.mem_map_of_mem Prod.fst he
          rw [dictSet_keys] at hkey
          by_cases hin : (dictGet? st.data k).isSome
          · rw [if_pos hin] at hkey
            rcases List.mem_map.mp hkey with ⟨e2, he2, hee⟩
            exact hee ▸ hd e2 he2
          · rw [if_neg hin] at hkey
            rcases List.mem_append.mp hkey with hm | hm
            · rcases List.mem_map.mp hm with ⟨e2, he2, hee⟩
              exact hee ▸ hd e2 he2
            · have : e.1 = k := by simpa using hm
              rw [this]
              exact hki
        · rw [if_neg hkh] at hs
          exact Option.noConfusion hs
      | none =>
        simp only [hsk] at hs
        cases hdk : deltaKey? c with
        | some e0 =>
          obtain ⟨k, pj⟩ := e0
          simp only [hdk] at hs
          by_cases hkh : k.hashable = true
          · rw [if_pos hkh] at hs
            obtain rfl := (Option.some.inj hs).symm
            exact hd
          · rw [if_neg hkh] at hs
            exact Option.noConfusion hs
        | none =>
          simp only [hdk] at hs
          obtain rfl := (Option.some.inj hs).symm
          exact hd

theorem toolFold_drop_deltas (i : Json) (hh : i.hashable = true) :
    ∀ (chunks : List Obj) (st st' : ToolSt),
      (∀ c ∈ chunks, isStartFor i c = false) →
      st.data = st'.data →
      (∀ k, pyEq k i = false → dictGet? st.parts k = dictGet? st'.parts k) →
      (toolFold chunks st = none ∧
        toolFold (chunks.filter fun c => !(isDeltaFor i c)) st' = none) ∨
      (∃ st2 st2', toolFold chunks st = some st2 ∧
        toolFold (chunks.filter fun c => !(isDeltaFor i c)) st' = some st2' ∧
        st2.data = st2'.data ∧
        (∀ k, pyEq k i = false → dictGet? st2.parts k = dictGet? st2'.parts k)) := by
  intro chunks
  induction chunks with
  | nil =>
    intro st st' _ hdata hparts
    exact Or.inr ⟨st, st', rfl, rfl, hdata, hparts⟩
  | cons c rest ih =>
    intro st st' hns hdata hparts
    have hnsr : ∀ c2 ∈ rest, isStartFor i c2 = false := fun c2 hc2 => hns c2 (by simp [hc2])
    cases hsk : startKey? c with
    | some e0 =>
      obtain ⟨k, tid, tname⟩ := e0
      have hkeep : (!(isDeltaFor i c)) = true := by
        simp [isDeltaFor, deltaKey?_of_start hsk]
      rw [List.filter_cons, if_pos hkeep]
      have hstepL : toolStep st c =
          if k.hashable then some { st with data := dictSet st.data k (tid, tname) }
          else none := by
        rw [toolStep_char, hsk]
      have hstepR : toolStep st' c =
          if k.hashable then some { st' with data := dictSet st'.data k (tid, tname) }
          else none := by
        rw [toolStep_char, hsk]
      by_cases hkh : k.hashable = true
      · rw [if_pos hkh] at hstepL hstepR
        simp only [toolFold, hstepL, hstepR]
        exact ih _ _ hnsr (by simp [hdata]) hparts
      · rw [if_neg hkh] at hstepL hstepR
        simp only [toolFold, hstepL, hstepR]
        exact Or.inl ⟨by simp, by simp⟩
    | none =>
      cases hdk : deltaKey? c with
      | some e0 =>
        obtain ⟨k, pj⟩ := e0
        have hstepL : toolStep st c =
            if k.hashable then some { st with parts := dictAppend st.parts k pj }
            else none := by
          rw [toolStep_char, hsk, hdk]
        by_cases hki : pyEq k i = true
        · have hkh : k.hashable = true := by
            rw [pyEq_hashable hki]
            exact hh
          rw [if_pos hkh] at hstepL
          have hdrop : (!(isDeltaFor i c)) = false := by
            simp [isDeltaFor, hdk, hki]
          rw [List.filter_cons, if_neg (by simp [hdrop])]
          simp only [toolFold, hstepL]
          refine ih _ _ hnsr (by simp [hdata]) ?_
          intro k2 hk2
          have hkk2 : pyEq k2 k = false := by
            cases hq : pyEq k2 k
            · rfl
            · exact absurd (pyEq_trans hq hki) (by simp [hk2])
          simp only
          rw [dictGet?_append, if_neg (by simp [hkk2])]
          exact hparts k2 hk2
        · have hki' : pyEq k i = false := by simpa using hki
          have hkeep : (!(isDeltaFor i c)) = true := by
            simp [isDeltaFor, hdk, hki']
          rw [List.filter_cons, if_pos hkeep]
          have hstepR : toolStep st' c =
              if k.hashable then some { st' with parts := dictAppend st'.parts k pj }
              else none := by
            rw [toolStep_char, hsk, hdk]
          by_cases hkh : k.hashable = true
          · rw [if_pos hkh] at hstepL
            rw [if_pos hkh] at hstepR
            simp only [toolFold, hstepL, hstepR]
            refine ih _ _ hnsr (by simp [hdata]) ?_
            intro k2 hk2
            simp only
            rw [dictGet?_append, dictGet?_append]
            by_cases hq : pyEq k2 k = true
            · rw [if_pos hq, if_pos hq, hparts k2 hk2]
            · rw [if_neg (by simpa using hq), if_neg (by simpa using hq)]
              exact hparts k2 hk2
          · rw [if_neg hkh] at hstepL
            rw [if_neg hkh] at hstepR
            simp only [toolFold, hstepL, hstepR]
            exact Or.inl ⟨by simp, by simp⟩
      | none =>
        have hkeep : (!(isDeltaFor i c)) = true := by
          simp [isDeltaFor, hdk]
        rw [List.filter_cons, if_pos hkeep]
        have hstepL : toolStep st c = some st := by
          rw [toolStep_char, hsk, hdk]
        have hstepR : toolStep st' c = some st' := by
          rw [toolStep_char, hsk, hdk]
        simp only [toolFold, hstepL, hstepR]
        exact ih _ _ hnsr hdata hparts

/-- C7 (amended): a delta for an index with no `content_block_start`
anywhere in the sequence contributes nothing — removing every such delta
leaves the extracted invocations unchanged. -/
theorem C7_unstarted_deltas_dropped (jp : String → Option Json) (i : Json)
    (chunks : List Obj) (hh : i.hashable = true)
    (hnostart : ∀ c ∈ chunks, isStartFor i c = false) :
    extractToolCallsFromChunks jp chunks =
      extractToolCallsFromChunks jp (chunks.filter fun c => !(isDeltaFor i c)) := by
  rcases toolFold_drop_deltas i hh chunks { data := [], parts := [] }
      { data := [], parts := [] } hnostart rfl (fun _ _ => rfl) with
    ⟨h1, h2⟩ | ⟨st2, st2', h1, h2, hdata, hparts⟩
  · unfold extractToolCallsFromChunks
    simp only [h1, h2]
  · unfold extractToolCallsFromChunks
    simp only [h1, h2]
    rw [hdata]
    cases hs : pySortByKey (fun e => e.1) st2'.data with
    | none => rfl
    | some sortedD =>
      have haway : ∀ e ∈ st2.data, pyEq e.1 i = false :=
        toolFold_data_away i chunks _ h1 hnostart (by simp)
      rw [hdata] at haway
      apply finalizeAll_congr
      intro e he
      have hmem : e ∈ st2'.data := (pySortByKey_perm _ hs).mem_iff.mp he
      exact hparts e.1 (haway e hmem)

/-! ### Shape conditions under which text extraction cannot raise -/

/-- The optional field is either absent or a string. -/
def safeText? : Option Json → Bool
  | some (.str _) => true
  | none => true
  | _ => false

/-- One OpenAI `choices` entry safe for the chunk extractor: an object
whose `delta` (defaulting to empty) is an object with string-or-absent
`content`. -/
def choiceSafeChunk (x : Json) : Bool :=
  match x with
  | .obj ckvs =>
    match objGetD ckvs "delta" (.obj []) with
    | .obj dk => safeText? (objGet dk "content")
    | _ => false
  | _ => false

/-- A chunk payload on which `_extract_text_from_chunks` cannot raise. -/
def safeChunk (chunk : Obj) : Bool :=
  match objGetD chunk "content" (.obj []) with
  | .obj kvs =>
    (match objGet kvs "delta" with
     | some (.obj d) => safeText? (objGet d "text")
     | _ => true) &&
    (match objGet kvs "choices" with
     | none => true
     | some (.arr items) => items.all choiceSafeChunk
     | some _ => false) &&
    safeText? (objGet kvs "text") &&
    (match objGet kvs "content_block" with
     | some (.obj b) => safeText? (objGet b "text")
     | _ => true)
  | _ => true

/-- One OpenAI `choices` entry safe for the body extractor. -/
def choiceSafeBody (x : Json) : Bool :=
  match x with
  | .obj ckvs =>
    match objGetD ckvs "message" (.obj []) with
    | .obj mk => safeText? (objGet mk "content")
    | _ => false
  | _ => false

/-- A non-streaming body on which `_extract_text_from_body` cannot raise. -/
def safeBody (body : Obj) : Bool :=
  match objGet body "content" with
  | some (.arr items) =>
    items.all fun item =>
      match item with
      | .obj kvs => safeText? (objGet kvs "text")
      | _ => true
  | some (.str _) => true
  | _ =>
    match objGet body "choices" with
    | none => true
    | some (.arr items) => items.all choiceSafeBody
    | some _ => false

theorem obj_any_get {kvs : Obj} {k : String} (h : (kvs.any fun kv => kv.1 = k) = true) :
    ∃ v, objGet kvs k = some v := by
  induction kvs with
  | nil => simp at h
  | cons e rest ih =>
    obtain ⟨k0, v0⟩ := e
    by_cases h0 : k0 = k
    · exact ⟨v0, by simp [objGet, h0]⟩
    · simp only [List.any_cons, Bool.or_eq_true] at h
      rcases h with h | h
    /- the head key differs, so the match is in the tail -/
      · exact absurd (by simpa using h) h0
      · rcases ih h with ⟨v, hv⟩
        exact ⟨v, by simp [objGet, h0, hv]⟩

theorem pyJoin_some_of_allStr {l : List Json} (h : ∀ p ∈ l, ∃ s, p = Json.str s) :
    ∃ s, pyJoin l = some s := by
  induction l with
  | nil => exact ⟨"", rfl⟩
  | cons p t ih =>
    rcases h p (by simp) with ⟨s, rfl⟩
    rcases ih (fun q hq => h q (by simp [hq])) with ⟨s2, hs2⟩
    exact ⟨s ++ s2, by simp [pyJoin, hs2]⟩

theorem chunkChoiceStep_safe {x : Json} (hx : choiceSafeChunk x = true) (acc : List Json) :
    ∃ out, chunkChoiceStep acc x = some out ∧
      ∀ p ∈ out, p ∈ acc ∨ ∃ s, p = Json.str s := by
  cases x with
  | obj ckvs =>
    simp only [choiceSafeChunk] at hx
    cases hdk : objGetD ckvs "delta" (.obj []) with
    | obj dk =>
      rw [hdk] at hx
      simp only at hx
      have hattr : pyAttrGetD (Json.obj ckvs) "delta" (.obj []) = some (Json.obj dk) := by
        simp [pyAttrGetD, hdk]
      have hcont : pyContains "content" (Json.obj dk) =
          some (dk.any fun kv => kv.1 = "content") := rfl
      by_cases hb : (dk.any fun kv => kv.1 = "content") = true
      · rcases obj_any_get hb with ⟨v, hv⟩
        have hvstr : ∃ s, v = Json.str s := by
          rw [hv] at hx
          cases v <;> simp [safeText?] at hx ⊢
        refine ⟨acc ++ [v], ?_, ?_⟩
        · simp [chunkChoiceStep, hattr, hcont, hb, pyGetItem, hv]
        · intro p hp
          rcases List.mem_append.mp hp with hin | hin
          · exact Or.inl hin
          · exact Or.inr ((by simpa using hin : p = v) ▸ hvstr)
      · refine ⟨acc, ?_, fun p hp => Or.inl hp⟩
        have hb' : (dk.any fun kv => kv.1 = "content") = false := by
          cases hq : (dk.any fun kv => kv.1 = "content")
          · rfl
          · exact absurd hq hb
        simp [chunkChoiceStep, hattr, hcont, hb']
    | null => rw [hdk] at hx; simp at hx
    | bool b => rw [hdk] at hx; simp at hx
    | num n => rw [hdk] at hx; simp at hx
    | str s => rw [hdk] at hx; simp at hx
    | arr xs => rw [hdk] at hx; simp at hx
  | null => simp [choiceSafeChunk] at hx
  | bool b => simp [choiceSafeChunk] at hx
  | num n => simp [choiceSafeChunk] at hx
  | str s => simp [choiceSafeChunk] at hx
  | arr xs => simp [choiceSafeChunk] at hx

theorem bodyChoiceStep_safe {x : Json} (hx : choiceSafeBody x = true) (acc : List Json) :
    ∃ out, bodyChoiceStep acc x = some out ∧
      ∀ p ∈ out, p ∈ acc ∨ ∃ s, p = Json.str s := by
  cases x with
  | obj ckvs =>
    simp only [choiceSafeBody] at hx
    cases hdk : objGetD ckvs "message" (.obj []) with
    | obj mk =>
      rw [hdk] at hx
      simp only at hx
      have hattr : pyAttrGetD (Json.obj ckvs) "message" (.obj []) = some (Json.obj mk) := by
        simp [pyAttrGetD, hdk]
      have hcont : pyContains "content" (Json.obj mk) =
          some (mk.any fun kv => kv.1 = "content") := rfl
      by_cases hb : (mk.any fun kv => kv.1 = "content") = true
      · rcases obj_any_get hb with ⟨v, hv⟩
        have hvstr : ∃ s, v = Json.str s := by
          rw [hv] at hx
          cases v <;> simp [safeText?] at hx ⊢
        refine ⟨acc ++ [v], ?_, ?_⟩
        · simp [bodyChoiceStep, hattr, hcont, hb, pyGetItem, hv]
        · intro p hp
          rcases List.mem_append.mp hp with hin | hin
          · exact Or.inl hin
          · exact Or.inr ((by simpa using hin : p = v) ▸ hvstr)
      · refine ⟨acc, ?_, fun p hp => Or.inl hp⟩
        have hb' : (mk.any fun kv => kv.1 = "content") = false := by
          cases hq : (mk.any fun kv => kv.1 = "content")
          · rfl
          · exact absurd hq hb
        simp [bodyChoiceStep, hattr, hcont, hb']
    | null => rw [hdk] at hx; simp at hx
    | bool b => rw [hdk] at hx; simp at hx
    | num n => rw [hdk] at hx; simp at hx
    | str s => rw [hdk] at hx; simp at hx
    | arr xs => rw [hdk] at hx; simp at hx
  | null => simp [choiceSafeBody] at hx
  | bool b => simp [choiceSafeBody] at hx
  | num n => simp [choiceSafeBody] at hx
  | str s => simp [choiceSafeBody] at hx
  | arr xs => simp [choiceSafeBody] at hx


theorem foldlM_steps_safe (step : List Json → Json → Option (List Json))
    (safeP : Json → Bool)
    (hstep : ∀ {x : Json}, safeP x = true → ∀ acc, ∃ out, step acc x = some out ∧
      ∀ p ∈ out, p ∈ acc ∨ ∃ s, p = Json.str s)
    (items : List Json) (hs : ∀ x ∈ items, safeP x = true) :
    ∀ acc, ∃ out, items.foldlM step acc = some out ∧
      (∀ p ∈ out, p ∈ acc ∨ ∃ s, p = Json.str s) := by
  induction items with
  | nil =>
    intro acc
    exact ⟨acc, rfl, fun p hp => Or.inl hp⟩
  | cons x t ih =>
    intro acc
    rcases hstep (hs x (by simp)) acc with ⟨out1, h1, hp1⟩
    rcases ih (fun y hy => hs y (by simp [hy])) out1 with ⟨out, hout, hpout⟩
    refine ⟨out, ?_, ?_⟩
    · rw [List.foldlM_cons, h1]
      simpa using hout
    · intro p hp
      rcases hpout p hp with hin | hstr
      · exact hp1 p hin
      · exact Or.inr hstr

theorem deltaTextPart_safe {kvs : Obj}
    (h : (match objGet kvs "delta" with
          | some (.obj d) => safeText? (objGet d "text")
          | _ => true) = true) :
    ∀ p ∈ deltaTextPart kvs, ∃ s, p = Json.str s := by
  unfold deltaTextPart
  cases hdel : objGet kvs "delta" with
  | none => simp
  | some dv =>
    cases dv with
    | obj d =>
      simp only [hdel] at h ⊢
      cases htext : objGet d "text" with
      | none => simp [htext]
      | some t =>
        simp only [htext] at h ⊢
        cases t <;> simp_all [safeText?]
    | null => simp [hdel]
    | bool b => simp [hdel]
    | num n => simp [hdel]
    | str s => simp [hdel]
    | arr xs => simp [hdel]

theorem rawTextPart_safe {kvs : Obj} (h : safeText? (objGet kvs "text") = true) :
    ∀ p ∈ rawTextPart kvs, ∃ s, p = Json.str s := by
  unfold rawTextPart
  cases htext : objGet kvs "text" with
  | none => simp
  | some t =>
    rw [htext] at h
    cases t <;> simp_all [safeText?]

theorem blockTextPart_safe {kvs : Obj}
    (h : (match objGet kvs "content_block" with
          | some (.obj b) => safeText? (objGet b "text")
          | _ => true) = true) :
    ∀ p ∈ blockTextPart kvs, ∃ s, p = Json.str s := by
  unfold blockTextPart
  cases hcb : objGet kvs "content_block" with
  | none => simp
  | some bv =>
    cases bv with
    | obj b =>
      simp only [hcb] at h ⊢
      cases htext : objGet b "text" with
      | none => simp [htext]
      | some t =>
        simp only [htext] at h ⊢
        cases t <;> simp_all [safeText?]
    | null => simp [hcb]
    | bool b => simp [hcb]
    | num n => simp [hcb]
    | str s => simp [hcb]
    | arr xs => simp [hcb]

theorem choicesTextParts_safe {kvs : Obj}
    (h : (match objGet kvs "choices" with
          | none => true
          | some (.arr items) => items.all choiceSafeChunk
          | some _ => false) = true) :
    ∃ l2, choicesTextParts kvs = some l2 ∧ ∀ p ∈ l2, ∃ s, p = Json.str s := by
  unfold choicesTextParts
  cases hch : objGet kvs "choices" with
  | none => exact ⟨[], rfl, by simp⟩
  | some v =>
    rw [hch] at h
    cases v with
    | arr items =>
      have hall : ∀ x ∈ items, choiceSafeChunk x = true := by
        intro x hx
        exact List.all_eq_true.mp (by simpa using h) x hx
      rcases foldlM_steps_safe chunkChoiceStep choiceSafeChunk
          (fun hx acc => chunkChoiceStep_safe hx acc) items hall [] with ⟨out, hout, hprop⟩
      refine ⟨out, by simp [pyIterate, hout], ?_⟩
      intro p hp
      rcases hprop p hp with hin | hstr
      · simp at hin
      · exact hstr
    | null => simp at h
    | bool b => simp at h
    | num n => simp at h
    | str s => simp at h
    | obj o => simp at h

theorem chunkTextParts_safe {c : Obj} (h : safeChunk c = true) :
    ∃ parts, chunkTextParts c = some parts ∧ ∀ p ∈ parts, ∃ s, p = Json.str s := by
  unfold safeChunk at h
  cases hco : objGetD c "content" (.obj []) with
  | obj kvs =>
    rw [hco] at h
    simp only [Bool.and_eq_true] at h
    obtain ⟨⟨⟨hA, hB⟩, hC⟩, hD⟩ := h
    rcases choicesTextParts_safe hB with ⟨l2, hl2, hl2s⟩
    refine ⟨deltaTextPart kvs ++ l2 ++ rawTextPart kvs ++ blockTextPart kvs, ?_, ?_⟩
    · simp only [chunkTextParts, hco, hl2]
    · intro p hp
      rcases List.mem_append.mp hp with hp | hp4
      · rcases List.mem_append.mp hp with hp | hp3
        · rcases List.mem_append.mp hp with hp1 | hp2
          · exact deltaTextPart_safe hA p hp1
          · exact hl2s p hp2
        · exact rawTextPart_safe hC p hp3
      · exact blockTextPart_safe hD p hp4
  | null => exact ⟨[], by simp [chunkTextParts, hco], by simp⟩
  | bool b => exact ⟨[], by simp [chunkTextParts, hco], by simp⟩
  | num n => exact ⟨[], by simp [chunkTextParts, hco], by simp⟩
  | str s => exact ⟨[.str s], by simp [chunkTextParts, hco], by simp⟩
  | arr xs => exact ⟨[], by simp [chunkTextParts, hco], by simp⟩

theorem extractTextFromChunks_safe (chunks : List Obj)
    (h : ∀ c ∈ chunks, safeChunk c = true) :
    (extractTextFromChunks chunks).isSome = true := by
  have hmap : ∃ parts, chunks.mapM chunkTextParts = some parts ∧
      ∀ p ∈ parts.flatten, ∃ s, p = Json.str s := by
    induction chunks with
    | nil => exact ⟨[], rfl, by simp⟩
    | cons c rest ih =>
      rcases chunkTextParts_safe (h c (by simp)) with ⟨p1, hp1, hp1s⟩
      rcases ih (fun c2 hc2 => h c2 (by simp [hc2])) with ⟨ps, hps, hpss⟩
      refine ⟨p1 :: ps, ?_, ?_⟩
      · rw [List.mapM_cons, hp1, hps]
        rfl
      · intro p hp
        rw [List.flatten_cons] at hp
        rcases List.mem_append.mp hp with hin | hin
        · exact hp1s p hin
        · exact hpss p hin
  rcases hmap with ⟨parts, hparts, hstr⟩
  rcases pyJoin_some_of_allStr hstr with ⟨s, hs⟩
  unfold extractTextFromChunks
  rw [hparts]
  simp [hs]

theorem bodyContentFold_safe (items : List Json)
    (hs : ∀ x ∈ items, (match x with
      | Json.obj kvs => safeText? (objGet kvs "text")
      | _ => true) = true) :
    ∀ acc, (∀ p ∈ acc, ∃ s, p = Json.str s) →
      ∀ p ∈ (items.foldl (fun acc item =>
        match item with
        | .obj kvs => match objGet kvs "text" with | some t => acc ++ [t] | none => acc
        | _ => acc) acc), ∃ s, p = Json.str s := by
  induction items with
  | nil =>
    intro acc hacc p hp
    exact hacc p hp
  | cons x t ih =>
    intro acc hacc
    rw [List.foldl_cons]
    have ht : ∀ y ∈ t, (match y with
      | Json.obj kvs => safeText? (objGet kvs "text")
      | _ => true) = true := fun y hy => hs y (by simp [hy])
    cases x with
    | obj kvs =>
      have hx : safeText? (objGet kvs "text") = true := hs (Json.obj kvs) (by simp)
      show ∀ p ∈ (t.foldl (fun acc item =>
        match item with
        | .obj kvs => match objGet kvs "text" with | some t => acc ++ [t] | none => acc
        | _ => acc)
        (match objGet kvs "text" with | some t => acc ++ [t] | none => acc)),
        ∃ s, p = Json.str s
      cases htext : objGet kvs "text" with
      | none => exact ih ht acc hacc
      | some t2 =>
        rw [htext] at hx
        refine ih ht (acc ++ [t2]) ?_
        intro p hp
        rcases List.mem_append.mp hp with hin | hin
        · exact hacc p hin
        · have hpt : p = t2 := by simpa using hin
          subst hpt
          cases p <;> simp_all [safeText?]
    | null => exact ih ht acc hacc
    | bool b => exact ih ht acc hacc
    | num n => exact ih ht acc hacc
    | str s => exact ih ht acc hacc
    | arr xs => exact ih ht acc hacc

theorem choicesExpr_isSome (body : Obj)
    (h : (match objGet body "choices" with
          | none => true
          | some (.arr items) => items.all choiceSafeBody
          | some _ => false) = true) :
    (match objGet body "choices" with
     | some v =>
        (pyIterate v).bind fun items =>
          (items.foldlM bodyChoiceStep ([] : List Json)).bind fun texts => pyJoin texts
     | none => some (dumpJson (.obj body))).isSome = true := by
  cases hch : objGet body "choices" with
  | none => simp [hch]
  | some v =>
    rw [hch] at h
    cases v with
    | arr items =>
      have hall : ∀ x ∈ items, choiceSafeBody x = true := by
        intro x hx
        exact List.all_eq_true.mp (by simpa using h) x hx
      rcases foldlM_steps_safe bodyChoiceStep choiceSafeBody
          (fun hx acc => bodyChoiceStep_safe hx acc) items hall [] with ⟨out, hout, hprop⟩
      have hstr : ∀ p ∈ out, ∃ s, p = Json.str s := by
        intro p hp
        rcases hprop p hp with hin | hstr
        · simp at hin
        · exact hstr
      rcases pyJoin_some_of_allStr hstr with ⟨s, hs⟩
      simp [hch, pyIterate, hout, hs]
    | null => simp at h
    | bool b => simp at h
    | num n => simp at h
    | str s => simp at h
    | obj o => simp at h

theorem extractTextFromBody_safe (body : Obj) (h : safeBody body = true) :
    (extractTextFromBody body).isSome = true := by
  unfold safeBody at h
  cases hco : objGet body "content" with
  | some cv =>
    cases cv with
    | arr items =>
      have h2 : (items.all fun item =>
          match item with
          | Json.obj kvs => safeText? (objGet kvs "text")
          | _ => true) = true := by
        rw [hco] at h
        exact h
      have hall := bodyContentFold_safe items
        (fun x hx => List.all_eq_true.mp h2 x hx) [] (by simp)
      rcases pyJoin_some_of_allStr hall with ⟨s, hs⟩
      have hgoal : extractTextFromBody body = pyJoin (items.foldl (fun acc item =>
          match item with
          | .obj kvs => match objGet kvs "text" with | some t => acc ++ [t] | none => acc
          | _ => acc) ([] : List Json)) := by
        simp only [extractTextFromBody, hco]
      rw [hgoal, hs]
      rfl
    | str s =>
      have hgoal : extractTextFromBody body = some s := by
        simp only [extractTextFromBody, hco]
      rw [hgoal]
      rfl
    | null =>
      have h2 := h
      rw [hco] at h2
      simp only [extractTextFromBody, hco]
      exact choicesExpr_isSome body h2
    | bool b =>
      have h2 := h
      rw [hco] at h2
      simp only [extractTextFromBody, hco]
      exact choicesExpr_isSome body h2
    | num n =>
      have h2 := h
      rw [hco] at h2
      simp only [extractTextFromBody, hco]
      exact choicesExpr_isSome body h2
    | obj o =>
      have h2 := h
      rw [hco] at h2
      simp only [extractTextFromBody, hco]
      exact choicesExpr_isSome body h2
  | none =>
    have h2 := h
    rw [hco] at h2
    simp only [extractTextFromBody, hco]
    exact choicesExpr_isSome body h2

/-- C3 (amended): text extraction is deterministic, and it returns a
string without raising on every payload whose vendor text fields are
strings and whose `choices` values are well-shaped lists of objects; on
other payloads an exception can escape (see the counterexample). -/
theorem C3_text_extraction_total_on_safe_shapes :
    (∀ chunks : List Obj, (∀ c ∈ chunks, safeChunk c = true) →
        (extractTextFromChunks chunks).isSome = true) ∧
    (∀ body : Obj, safeBody body = true → (extractTextFromBody body).isSome = true) :=
  ⟨extractTextFromChunks_safe, extractTextFromBody_safe⟩

/-! ### Invariance of merge under permuting the chunk events -/

theorem perm_all {α : Type} {l1 l2 : List α} (h : List.Perm l1 l2) (p : α → Bool) :
    l1.all p = l2.all p := by
  cases hb : l2.all p
  · cases hb1 : l1.all p
    · rfl
    · rw [List.all_eq_true] at hb1
      have h2 : l2.all p = true :=
        List.all_eq_true.mpr fun x hx => hb1 x (h.mem_iff.mpr hx)
      rw [h2] at hb
      exact hb
  · rw [List.all_eq_true] at hb
    exact List.all_eq_true.mpr fun x hx => hb x (h.mem_iff.mp hx)

theorem all_split {α : Type} (p q : α → Bool) (l : List α) :
    l.all p = ((l.filter q).all p && (l.filter fun a => !q a).all p) := by
  induction l with
  | nil => rfl
  | cons x t ih =>
    cases hq : q x <;>
      simp [List.filter_cons, hq, ih, Bool.and_assoc, Bool.and_left_comm]

theorem perm_isEmpty {α : Type} {l1 l2 : List α} (h : List.Perm l1 l2) :
    l1.isEmpty = l2.isEmpty := by
  cases l1 with
  | nil =>
    cases l2 with
    | nil => rfl
    | cons y t => exact absurd h.length_eq (by simp)
  | cons x t =>
    cases l2 with
    | nil => exact absurd h.length_eq (by simp)
    | cons y t2 => rfl

theorem isChunkT_req_false {r : Obj} (h : isChunkT r = true) : isReqT r = false := by
  simp only [isChunkT, decide_eq_true_eq] at h
  simp [isReqT, h]

theorem isChunkT_meta_false {r : Obj} (h : isChunkT r = true) : isMetaT r = false := by
  simp only [isChunkT, decide_eq_true_eq] at h
  simp [isMetaT, h]

theorem isChunkT_resp_false {r : Obj} (h : isChunkT r = true) : isRespT r = false := by
  simp only [isChunkT, decide_eq_true_eq] at h
  simp [isRespT, h]

theorem filter_matchesChunk (l : List Obj) (k : Json) :
    (l.filter isChunkT).filter (matchesChunk k) = l.filter (matchesChunk k) := by
  induction l with
  | nil => rfl
  | cons r t ih =>
    cases hc : isChunkT r
    · have hm : matchesChunk k r = false := by simp [matchesChunk, hc]
      rw [List.filter_cons_of_neg (by simp [hc]), List.filter_cons_of_neg (by simp [hm]), ih]
    · rw [List.filter_cons_of_pos (by simp [hc]), List.filter_cons, List.filter_cons, ih]

/-- Lookup in the chunk-grouping fold started from the empty dict. -/
theorem chunks_lookup0 (l : List Obj) (k : Json) :
    dictGet? (l.foldl chunkUpd []) k =
      if (l.filter (matchesChunk k)).isEmpty then none
      else some (l.filter (matchesChunk k)) := by
  rw [chunks_lookup]
  by_cases he : (l.filter (matchesChunk k)).isEmpty
  · rw [if_pos he, if_pos he]
    rfl
  · rw [if_neg he, if_neg he]
    rfl

/-- Classification of one request only sees the grouping state through the
chunk lookup (up to sorting), the metas and the non-streaming responses. -/
theorem classifyEntry_congr (jp : String → Option Json) (isoOk : String → Bool)
    (st1 st2 : GroupSt) (rid : Json) (req : Obj)
    (hm : st1.metas = st2.metas) (hn : st1.nonStreaming = st2.nonStreaming)
    (hiff : (dictGet? st1.chunks rid).isSome = (dictGet? st2.chunks rid).isSome)
    (hsort : ∀ c1 c2, dictGet? st1.chunks rid = some c1 → dictGet? st2.chunks rid = some c2 →
      pySortByKey (fun c0 => objGetD c0 "chunk_index" (.num 0)) c1
        = pySortByKey (fun c0 => objGetD c0 "chunk_index" (.num 0)) c2) :
    classifyEntry jp isoOk st1 rid req = classifyEntry jp isoOk st2 rid req := by
  cases h1 : dictGet? st1.chunks rid with
  | some c1 =>
    cases h2 : dictGet? st2.chunks rid with
    | none =>
      rw [h1, h2] at hiff
      simp at hiff
    | some c2 =>
      have hs := hsort c1 c2 h1 h2
      simp only [classifyEntry, h1, h2, hm, hn, hs]
  | none =>
    cases h2 : dictGet? st2.chunks rid with
    | some c2 =>
      rw [h1, h2] at hiff
      simp at hiff
    | none => simp only [classifyEntry, h1, h2, hm, hn]

theorem classifyAll_congr (jp : String → Option Json) (isoOk : String → Bool)
    (st1 st2 : GroupSt)
    (hcong : ∀ rid req, classifyEntry jp isoOk st1 rid req = classifyEntry jp isoOk st2 rid req) :
    ∀ entries stats recs,
      classifyAll jp isoOk st1 entries stats recs = classifyAll jp isoOk st2 entries stats recs := by
  intro entries
  induction entries with
  | nil =>
    intro stats recs
    rfl
  | cons e rest ih =>
    intro stats recs
    obtain ⟨rid, req⟩ := e
    simp only [classifyAll, hcong rid req]
    cases classifyEntry jp isoOk st2 rid req with
    | none => rfl
    | some rc =>
      obtain ⟨r?, c⟩ := rc
      exact ih _ _

/-- C4 (amended): merge is invariant under any permutation of the
`response_chunk` events (all other events kept in place) provided each
exchange's chunks carry pairwise-distinct `chunk_index` keys; with a
duplicated index the stable sort exposes the arrival order (see the
counterexample). -/
theorem C4_chunk_permutation_invariance (jp : String → Option Json) (isoOk : String → Bool)
    (records records' : List Obj)
    (hnon : records.filter (fun r => !(isChunkT r)) = records'.filter (fun r => !(isChunkT r)))
    (hperm : List.Perm (records.filter isChunkT) (records'.filter isChunkT))
    (hdis : ∀ k : Json, (chunksFor records k).Pairwise
        (fun a b => pyEq (objGetD a "chunk_index" (.num 0))
          (objGetD b "chunk_index" (.num 0)) = false)) :
    merge jp isoOk records = merge jp isoOk records' := by
  have hall : records.all stepOk = records'.all stepOk := by
    rw [all_split stepOk isChunkT records, all_split stepOk isChunkT records',
      hnon, perm_all hperm stepOk]
  have hskipReq : ∀ (m : List (Json × Obj)) r, (!(isChunkT r)) = false → reqUpd m r = m := by
    intro m r h
    exact reqUpd_skip m r (isChunkT_req_false (by simpa using h))
  have hskipMeta : ∀ (m : List (Json × Obj)) r, (!(isChunkT r)) = false → metaUpd m r = m := by
    intro m r h
    exact metaUpd_skip m r (isChunkT_meta_false (by simpa using h))
  have hskipResp : ∀ (m : List (Json × Obj)) r, (!(isChunkT r)) = false → respUpd m r = m := by
    intro m r h
    exact respUpd_skip m r (isChunkT_resp_false (by simpa using h))
  have hreq : records.foldl reqUpd ([] : List (Json × Obj)) = records'.foldl reqUpd [] := by
    rw [foldl_skip_filter (fun r => !(isChunkT r)) reqUpd hskipReq records [],
      foldl_skip_filter (fun r => !(isChunkT r)) reqUpd hskipReq records' [], hnon]
  have hmeta : records.foldl metaUpd ([] : List (Json × Obj)) = records'.foldl metaUpd [] := by
    rw [foldl_skip_filter (fun r => !(isChunkT r)) metaUpd hskipMeta records [],
      foldl_skip_filter (fun r => !(isChunkT r)) metaUpd hskipMeta records' [], hnon]
  have hresp : records.foldl respUpd ([] : List (Json × Obj)) = records'.foldl respUpd [] := by
    rw [foldl_skip_filter (fun r => !(isChunkT r)) respUpd hskipResp records [],
      foldl_skip_filter (fun r => !(isChunkT r)) respUpd hskipResp records' [], hnon]
  have hpermF : ∀ k, List.Perm (records.filter (matchesChunk k))
      (records'.filter (matchesChunk k)) := by
    intro k
    rw [← filter_matchesChunk records k, ← filter_matchesChunk records' k]
    exact hperm.filter _
  cases hA : records'.all stepOk with
  | false =>
    have hg1 : groupRecords records initGroup = none := by
      rw [groupRecords_eq, hall, hA]
      rfl
    have hg2 : groupRecords records' initGroup = none := by
      rw [groupRecords_eq, hA]
      rfl
    simp only [merge, hg1, hg2]
  | true =>
    have hg1 : groupRecords records initGroup =
        some ⟨records.foldl reqUpd [], records.foldl chunkUpd [],
              records.foldl metaUpd [], records.foldl respUpd []⟩ := by
      rw [groupRecords_eq, hall, hA]
      rfl
    have hg2 : groupRecords records' initGroup =
        some ⟨records'.foldl reqUpd [], records'.foldl chunkUpd [],
              records'.foldl metaUpd [], records'.foldl respUpd []⟩ := by
      rw [groupRecords_eq, hA]
      rfl
    simp only [merge, hg1, hg2]
    rw [hreq, hmeta, hresp]
    refine classifyAll_congr jp isoOk _ _ ?_ _ _ _
    intro rid req
    refine classifyEntry_congr jp isoOk _ _ rid req rfl rfl ?_ ?_
    · show (dictGet? (records.foldl chunkUpd []) rid).isSome
        = (dictGet? (records'.foldl chunkUpd []) rid).isSome
      rw [chunks_lookup0, chunks_lookup0, perm_isEmpty (hpermF rid)]
      by_cases he : (records'.filter (matchesChunk rid)).isEmpty
      · rw [if_pos he, if_pos he]
      · rw [if_neg he, if_neg he]
        rfl
    · intro c1 c2 h1 h2
      rw [chunks_lookup0] at h1 h2
      by_cases he : (records'.filter (matchesChunk rid)).isEmpty
      · rw [if_pos he] at h2
        exact Option.noConfusion h2
      · rw [if_neg he] at h2
        have he1 : ¬ (records.filter (matchesChunk rid)).isEmpty = true := by
          rw [perm_isEmpty (hpermF rid)]
          exact he
        rw [if_neg he1] at h1
        obtain rfl := Option.some.inj h1
        obtain rfl := Option.some.inj h2
        exact pySortByKey_congr _ (hpermF rid) (hdis rid)

/-! ### Counterexamples to the claims as stated -/

/-- C3 (counterexample): a non-string vendor text field makes both
extractors raise a `TypeError` in the final join — here a numeric
`delta.text` in a chunk and a `None` message content in a body. -/
theorem C3_counterexample :
    extractTextFromChunks
        [[("content", Json.obj [("delta", Json.obj [("text", Json.num 5)])])]] = none ∧
    extractTextFromBody
        [("choices", Json.arr [Json.obj [("message", Json.obj [("content", Json.null)])]])]
      = none :=
  ⟨rfl, rfl⟩

/-- C4 (counterexample): with a duplicated `chunk_index`, swapping two
chunk events changes the merged output, because the stable sort keeps
arrival order among equal keys. -/
theorem C4_counterexample :
    merge (fun _ => none) (fun _ => false)
        [[("type", Json.str "request"), ("id", Json.str "r1")],
         [("type", Json.str "response_chunk"), ("request_id", Json.str "r1"),
          ("chunk_index", Json.num 0), ("content", Json.str "A")],
         [("type", Json.str "response_chunk"), ("request_id", Json.str "r1"),
          ("chunk_index", Json.num 0), ("content", Json.str "B")]] ≠
      merge (fun _ => none) (fun _ => false)
        [[("type", Json.str "request"), ("id", Json.str "r1")],
         [("type", Json.str "response_chunk"), ("request_id", Json.str "r1"),
          ("chunk_index", Json.num 0), ("content", Json.str "B")],
         [("type", Json.str "response_chunk"), ("request_id", Json.str "r1"),
          ("chunk_index", Json.num 0), ("content", Json.str "A")]] := by
  decide

/-- C7 (counterexample): a delta arriving before the start of its index
still contributes to the invocation's input, so a delta with no prior
start in sequence order is not always dropped. -/
theorem C7_counterexample :
    extractToolCallsFromChunks (fun _ => none)
        [mkDelta (Json.num 0) "x", mkStart (Json.num 0) (Json.str "t1") (Json.str "f")] =
      some [{ id := Json.str "t1", name := Json.str "f", input := Json.str "x" }] := by
  decide

/-! ### Witnesses: the claim theorems instantiated at concrete inputs -/

/-- Witness for C1 on a single unanswered request. -/
theorem C1_stats_partition_witness :
    (Stats.mk 1 0 0 1 0).total_requests
        = (Stats.mk 1 0 0 1 0).streaming_requests + (Stats.mk 1 0 0 1 0).non_streaming_requests
          + (Stats.mk 1 0 0 1 0).incomplete_requests ∧
    (Stats.mk 1 0 0 1 0).total_requests
        = (pyDedup (reqIds [[("type", Json.str "request"), ("id", Json.str "r1")]])).length :=
  C1_stats_partition (fun _ => none) (fun _ => false)
    [[("type", Json.str "request"), ("id", Json.str "r1")]]
    (Stats.mk 1 0 0 1 0) [] (by decide)

/-- Witness for C2 on one streaming exchange with one chunk. -/
theorem C2_chunk_counts_witness :
    (∀ rec ∈ [(MergedRecord.mk (Json.str "r1") PyDateTime.utcnow (Json.str "")
          (Json.str "") Json.null (Json.num 0) "A" [] (Json.num 0) 1)],
        0 < rec.chunk_count →
          rec.chunk_count = countChunksFor
            [[("type", Json.str "request"), ("id", Json.str "r1")],
             [("type", Json.str "response_chunk"), ("request_id", Json.str "r1"),
              ("chunk_index", Json.num 0), ("content", Json.str "A")]] rec.request_id) ∧
    (Stats.mk 1 1 0 0 1).total_chunks_processed =
      (([(MergedRecord.mk (Json.str "r1") PyDateTime.utcnow (Json.str "")
          (Json.str "") Json.null (Json.num 0) "A" [] (Json.num 0) 1)].filter
            fun rec => 0 < rec.chunk_count).map fun rec => rec.chunk_count).sum :=
  C2_chunk_counts (fun _ => none) (fun _ => false)
    [[("type", Json.str "request"), ("id", Json.str "r1")],
     [("type", Json.str "response_chunk"), ("request_id", Json.str "r1"),
      ("chunk_index", Json.num 0), ("content", Json.str "A")]]
    (Stats.mk 1 1 0 0 1)
    [MergedRecord.mk (Json.str "r1") PyDateTime.utcnow (Json.str "")
       (Json.str "") Json.null (Json.num 0) "A" [] (Json.num 0) 1]
    (by decide)

/-- Witness for C3 on a string chunk content and a string body content. -/
theorem C3_safe_shapes_witness :
    (extractTextFromChunks [[("content", Json.str "hi")]]).isSome = true ∧
    (extractTextFromBody [("content", Json.str "ok")]).isSome = true :=
  ⟨C3_text_extraction_total_on_safe_shapes.1 [[("content", Json.str "hi")]] (by decide),
   C3_text_extraction_total_on_safe_shapes.2 [("content", Json.str "ok")] (by decide)⟩

/-- Witness for C4: swapping two chunks with distinct `chunk_index` keys
leaves the merge result unchanged. -/
theorem C4_permutation_witness :
    merge (fun _ => none) (fun _ => false)
        [[("type", Json.str "request"), ("id", Json.str "w1")],
         [("type", Json.str "response_chunk"), ("request_id", Json.str "w1"),
          ("chunk_index", Json.num 0), ("content", Json.str "x")],
         [("type", Json.str "response_chunk"), ("request_id", Json.str "w1"),
          ("chunk_index", Json.num 1), ("content", Json.str "y")]] =
      merge (fun _ => none) (fun _ => false)
        [[("type", Json.str "request"), ("id", Json.str "w1")],
         [("type", Json.str "response_chunk"), ("request_id", Json.str "w1"),
          ("chunk_index", Json.num 1), ("content", Json.str "y")],
         [("type", Json.str "response_chunk"), ("request_id", Json.str "w1"),
          ("chunk_index", Json.num 0), ("content", Json.str "x")]] :=
  C4_chunk_permutation_invariance (fun _ => none) (fun _ => false)
    [[("type", Json.str "request"), ("id", Json.str "w1")],
     [("type", Json.str "response_chunk"), ("request_id", Json.str "w1"),
      ("chunk_index", Json.num 0), ("content", Json.str "x")],
     [("type", Json.str "response_chunk"), ("request_id", Json.str "w1"),
      ("chunk_index", Json.num 1), ("content", Json.str "y")]]
    [[("type", Json.str "request"), ("id", Json.str "w1")],
     [("type", Json.str "response_chunk"), ("request_id", Json.str "w1"),
      ("chunk_index", Json.num 1), ("content", Json.str "y")],
     [("type", Json.str "response_chunk"), ("request_id", Json.str "w1"),
      ("chunk_index", Json.num 0), ("content", Json.str "x")]]
    (by decide)
    (List.Perm.swap
      [("type", Json.str "response_chunk"), ("request_id", Json.str "w1"),
       ("chunk_index", Json.num 1), ("content", Json.str "y")]
      [("type", Json.str "response_chunk"), ("request_id", Json.str "w1"),
       ("chunk_index", Json.num 0), ("content", Json.str "x")] [])
    (fun k => by
      simp only [chunksFor]
      rw [List.filter_cons_of_neg (fun h => Bool.noConfusion h)]
      exact List.Pairwise.filter _ (by decide))

/-- Witness for C5 on one started tool block with an empty buffer. -/
theorem C5_trichotomy_witness :
    ∃ st sortedD,
      toolFold [mkStart (Json.num 0) (Json.str "t") (Json.str "f")]
          { data := [], parts := [] } = some st ∧
      pySortByKey (fun e => e.1) st.data = some sortedD ∧
      ∀ e ∈ sortedD, ∃ s tc,
        pyJoin ((dictGet? st.parts e.1).getD []) = some s ∧
        tc ∈ [({ id := Json.str "t", name := Json.str "f", input := Json.null } : ToolCall)] ∧
        tc.id = e.2.1 ∧ tc.name = e.2.2 ∧
        (s = "" → tc.input = .null) ∧
        (∀ v, s ≠ "" → (fun _ => (none : Option Json)) s = some v → tc.input = v) ∧
        (s ≠ "" → (fun _ => (none : Option Json)) s = none → tc.input = .str s) :=
  C5_tool_input_trichotomy (fun _ => none)
    [mkStart (Json.num 0) (Json.str "t") (Json.str "f")]
    [{ id := Json.str "t", name := Json.str "f", input := Json.null }]
    (by decide)

/-- Witness for C6: delivering `"ab"` as `["a", "b"]` equals delivering it
whole. -/
theorem C6_split_invariance_witness :
    extractToolCallsFromChunks (fun _ => none)
        (mkStart (Json.num 0) (Json.str "t6") (Json.str "g6")
          :: (["a", "b"].map (mkDelta (Json.num 0)))) =
      extractToolCallsFromChunks (fun _ => none)
        [mkStart (Json.num 0) (Json.str "t6") (Json.str "g6"), mkDelta (Json.num 0) "ab"] :=
  C6_split_invariance (fun _ => none) (Json.num 0) (Json.str "t6") (Json.str "g6") "ab"
    ["a", "b"] (by decide) (by decide)

/-- Witness for C7 on a single delta whose index is never started. -/
theorem C7_unstarted_witness :
    extractToolCallsFromChunks (fun _ => none) [mkDelta (Json.num 5) "x"] =
      extractToolCallsFromChunks (fun _ => none)
        ([mkDelta (Json.num 5) "x"].filter fun c => !(isDeltaFor (Json.num 5) c)) :=
  C7_unstarted_deltas_dropped (fun _ => none) (Json.num 5) [mkDelta (Json.num 5) "x"]
    (by decide) (by decide)

/-- Witness for C8 on two start events arriving in descending index
order. -/
theorem C8_ascending_order_witness :
    ∃ st sortedD,
      toolFold [mkStart (Json.num 1) (Json.str "a") (Json.str "g"),
          mkStart (Json.num 0) (Json.str "b") (Json.str "h")]
          { data := [], parts := [] } = some st ∧
      pySortByKey (fun e => e.1) st.data = some sortedD ∧
      sortedD.Pairwise (fun a b => pyLt a.1 b.1 = some true) ∧
      finalizeAll (fun _ => none) st.parts sortedD =
        some [{ id := Json.str "b", name := Json.str "h", input := Json.null },
              { id := Json.str "a", name := Json.str "g", input := Json.null }] :=
  C8_ascending_order (fun _ => none)
    [mkStart (Json.num 1) (Json.str "a") (Json.str "g"),
     mkStart (Json.num 0) (Json.str "b") (Json.str "h")]
    [{ id := Json.str "b", name := Json.str "h", input := Json.null },
     { id := Json.str "a", name := Json.str "g", input := Json.null }]
    (by decide)

/-- Witness for C9 on a streaming exchange whose meta carries both a
status and a latency. -/
theorem C9_meta_fallbacks_witness :
    ∃ sorted c0,
        pySortByKey (fun c1 => objGetD c1 "chunk_index" (.num 0))
          (chunksFor
            [[("type", Json.str "request"), ("id", Json.str "r2")],
             [("type", Json.str "response_chunk"), ("request_id", Json.str "r2"),
              ("chunk_index", Json.num 0), ("content", Json.str "hi"),
              ("status_code", Json.num 201)],
             [("type", Json.str "response_meta"), ("request_id", Json.str "r2"),
              ("status_code", Json.num 200), ("total_latency_ms", Json.num 42)]]
            (Json.str "r2")) = some sorted ∧
        sorted.head? = some c0 ∧
        (∀ m v, metaFor
            [[("type", Json.str "request"), ("id", Json.str "r2")],
             [("type", Json.str "response_chunk"), ("request_id", Json.str "r2"),
              ("chunk_index", Json.num 0), ("content", Json.str "hi"),
              ("status_code", Json.num 201)],
             [("type", Json.str "response_meta"), ("request_id", Json.str "r2"),
              ("status_code", Json.num 200), ("total_latency_ms", Json.num 42)]]
            (Json.str "r2") = some m →
            objGet m "status_code" = some v → (Json.num 200) = v) ∧
        (metaFor
            [[("type", Json.str "request"), ("id", Json.str "r2")],
             [("type", Json.str "response_chunk"), ("request_id", Json.str "r2"),
              ("chunk_index", Json.num 0), ("content", Json.str "hi"),
              ("status_code", Json.num 201)],
             [("type", Json.str "response_meta"), ("request_id", Json.str "r2"),
              ("status_code", Json.num 200), ("total_latency_ms", Json.num 42)]]
            (Json.str "r2") = none →
            (Json.num 200) = objGetD c0 "status_code" (.num 0)) ∧
        (∀ m v, metaFor
            [[("type", Json.str "request"), ("id", Json.str "r2")],
             [("type", Json.str "response_chunk"), ("request_id", Json.str "r2"),
              ("chunk_index", Json.num 0), ("content", Json.str "hi"),
              ("status_code", Json.num 201)],
             [("type", Json.str "response_meta"), ("request_id", Json.str "r2"),
              ("status_code", Json.num 200), ("total_latency_ms", Json.num 42)]]
            (Json.str "r2") = some m →
            objGet m "total_latency_ms" = some v → (Json.num 42) = v) ∧
        ((metaFor
            [[("type", Json.str "request"), ("id", Json.str "r2")],
             [("type", Json.str "response_chunk"), ("request_id", Json.str "r2"),
              ("chunk_index", Json.num 0), ("content", Json.str "hi"),
              ("status_code", Json.num 201)],
             [("type", Json.str "response_meta"), ("request_id", Json.str "r2"),
              ("status_code", Json.num 200), ("total_latency_ms", Json.num 42)]]
            (Json.str "r2") = none ∨
          ∃ m, metaFor
            [[("type", Json.str "request"), ("id", Json.str "r2")],
             [("type", Json.str "response_chunk"), ("request_id", Json.str "r2"),
              ("chunk_index", Json.num 0), ("content", Json.str "hi"),
              ("status_code", Json.num 201)],
             [("type", Json.str "response_meta"), ("request_id", Json.str "r2"),
              ("status_code", Json.num 200), ("total_latency_ms", Json.num 42)]]
            (Json.str "r2") = some m ∧
              objGet m "total_latency_ms" = none) →
            (Json.num 42) = .num 0) :=
  C9_meta_fallbacks (fun _ => none) (fun _ => false)
    [[("type", Json.str "request"), ("id", Json.str "r2")],
     [("type", Json.str "response_chunk"), ("request_id", Json.str "r2"),
      ("chunk_index", Json.num 0), ("content", Json.str "hi"),
      ("status_code", Json.num 201)],
     [("type", Json.str "response_meta"), ("request_id", Json.str "r2"),
      ("status_code", Json.num 200), ("total_latency_ms", Json.num 42)]]
    (Stats.mk 1 1 0 0 1)
    [MergedRecord.mk (Json.str "r2") PyDateTime.utcnow (Json.str "")
       (Json.str "") Json.null (Json.num 200) "hi" [] (Json.num 42) 1]
    (by decide)
    (MergedRecord.mk (Json.str "r2") PyDateTime.utcnow (Json.str "")
       (Json.str "") Json.null (Json.num 200) "hi" [] (Json.num 42) 1)
    (by decide) (by decide)

/-- Witness for C10 on a chunk event with no `request_id`. -/
theorem C10_falsy_discard_witness :
    merge (fun _ => none) (fun _ => false) [[("type", Json.str "response_chunk")]] =
      merge (fun _ => none) (fun _ => false) [] :=
  C10_falsy_request_id_discarded (fun _ => none) (fun _ => false) [] []
    [("type", Json.str "response_chunk")] (Or.inl (by decide)) (by decide)

end CCI
